import Mathlib

/-
  Verification of the Reporanger repository: the Zenorc e-mail payment
  pipeline (src/ai_agents/zenorc.py) and the Repo-Ranger web backend
  (src/main.py), shallowly embedded in Lean.

  Strings from the Python sources are modelled as lists of characters.
  The regular expressions of the source are embedded as executable
  matchers that follow the ordered-alternation, greedy-star behaviour of
  the Python engine on the concrete patterns appearing in the source,
  together with declarative decomposition predicates used to state the
  claims about them.
-/

namespace Zenorc

abbrev Chars := List Char

/-- ASCII lower-casing of a single character. -/
def lowerChar (c : Char) : Char :=
  if 'A' ≤ c ∧ c ≤ 'Z' then Char.ofNat (c.toNat + 32) else c

/-- Case-insensitive character comparison, as re.IGNORECASE performs it
on the ASCII letters occurring in the patterns of zenorc.py. -/
def eqCI (p c : Char) : Bool := lowerChar p == lowerChar c

/-- The whitespace class of the regex escape backslash-s. -/
def isWS (c : Char) : Bool :=
  c == ' ' || c == '\t' || c == '\n' || c == '\r' || c == '\x0b' || c == '\x0c'

/-- The regex character class holding a comma and a space. -/
def isCS (c : Char) : Bool := c == ',' || c == ' '

/-- ASCII digit, the class of the regex escape backslash-d. -/
def isDigitC (c : Char) : Bool := '0' ≤ c && c ≤ '9'

/-- Word character, deciding the word-boundary assertion of the regex. -/
def isWordChar (c : Char) : Bool :=
  ('a' ≤ c && c ≤ 'z') || ('A' ≤ c && c ≤ 'Z') || isDigitC c || c == '_'

/-- Case-insensitively strip a literal pattern from the front of the
input, returning the remainder of the input on success. -/
def stripCI : Chars → Chars → Option Chars
  | [], cs => some cs
  | _ :: _, [] => none
  | p :: ps, c :: cs => if eqCI p c then stripCI ps cs else none

/-- Case-sensitive list-of-characters version of str.startswith. -/
def startsWithL : Chars → Chars → Bool
  | [], _ => true
  | _ :: _, [] => false
  | p :: ps, c :: cs => p == c && startsWithL ps cs

/-- The Python substring test (the `in` operator on str). -/
def containsSub (needle : Chars) : Chars → Bool
  | [] => startsWithL needle []
  | c :: cs => startsWithL needle (c :: cs) || containsSub needle cs

/-! ### The amount pattern of zenorc.py line 235

The compiled pattern _AMT_5_RE is
`(?:₹|rs\.?|inr)\s*[, ]*\s*5(?:[.,]00)?\b` with re.IGNORECASE. -/

/-- Word-boundary test at a position whose preceding character is a word
character (the digit 5 or 0): the next character must not be a word
character, or the input must end. -/
def atBoundary : Chars → Bool
  | [] => true
  | c :: _ => !isWordChar c

/-- The optional group after the literal 5: a dot or comma followed by
two zeros, then the word boundary. -/
def amtGroup : Chars → Bool
  | c :: d1 :: d2 :: rest =>
    (c == '.' || c == ',') && d1 == '0' && d2 == '0' && atBoundary rest
  | _ => false

/-- After the literal 5: the engine tries the optional group first and
falls back to the bare word boundary. -/
def amtSuffix (cs : Chars) : Bool := amtGroup cs || atBoundary cs

/-- After the currency prefix: the greedy separator stars, the literal 5
and the suffix with its boundary. -/
def amtAfter (cs : Chars) : Bool :=
  let r3 := ((cs.dropWhile isWS).dropWhile isCS).dropWhile isWS
  match r3 with
  | c :: rest => c == '5' && amtSuffix rest
  | [] => false

/-- Try the currency alternatives in the order of the pattern. -/
def amtAtPos (cs : Chars) : Bool :=
  (match stripCI "₹".data cs with | some r => amtAfter r | none => false)
  || (match stripCI "rs.".data cs with | some r => amtAfter r | none => false)
  || (match stripCI "rs".data cs with | some r => amtAfter r | none => false)
  || (match stripCI "inr".data cs with | some r => amtAfter r | none => false)

/-- The search of _AMT_5_RE over the whole body: try every start
position from the left. -/
def amtSearch : Chars → Bool
  | [] => false
  | c :: cs => amtAtPos (c :: cs) || amtSearch cs

/-- The function _is_valid_payment of zenorc.py lines 237 to 243. -/
def is_valid_payment (bodyLc : Chars) : Bool :=
  let isCredit := containsSub "credited".data bodyLc && !containsSub "debited".data bodyLc
  let isCorrectAmount := amtSearch bodyLc
  isCredit && isCorrectAmount

/-! ### The transaction-id patterns of zenorc.py lines 224 to 233 -/

/-- The optional colon or hyphen before the digits: consume one when
present. -/
def punctDrop : Chars → Chars
  | c :: rest => if c == ':' || c == '-' then rest else c :: rest
  | [] => []

/-- The shared tail of both reference patterns: greedy whitespace, an
optional colon or hyphen, greedy whitespace, then the capturing group of
eight or more digits (the group is the maximal digit run). -/
def refCont (cs : Chars) : Option Chars :=
  let r3 := (punctDrop (cs.dropWhile isWS)).dropWhile isWS
  let d := r3.takeWhile isDigitC
  if 8 ≤ d.length then some d else none

/-- The first pattern at a fixed position: the literal Reference, greedy
whitespace, the optional alternatives No. and No and number in the order
the engine tries them (with the empty option last), then the shared
tail. -/
def p1AtPos (cs : Chars) : Option Chars :=
  match stripCI "reference".data cs with
  | none => none
  | some r =>
    (match stripCI "no.".data (r.dropWhile isWS) with
     | some r2 => refCont r2 | none => none)
    <|> (match stripCI "no".data (r.dropWhile isWS) with
     | some r2 => refCont r2 | none => none)
    <|> (match stripCI "number".data (r.dropWhile isWS) with
     | some r2 => refCont r2 | none => none)
    <|> refCont (r.dropWhile isWS)

/-- The second pattern at a fixed position: the literal phrase, greedy
whitespace, the optional word is, then the shared tail. -/
def p2AtPos (cs : Chars) : Option Chars :=
  match stripCI "transaction reference number".data cs with
  | none => none
  | some r =>
    (match stripCI "is".data (r.dropWhile isWS) with
     | some r2 => refCont r2 | none => none)
    <|> refCont (r.dropWhile isWS)

/-- Leftmost search of the first pattern, as re.search performs it. -/
def searchP1 : Chars → Option Chars
  | [] => none
  | c :: cs => p1AtPos (c :: cs) <|> searchP1 cs

/-- Leftmost search of the second pattern. -/
def searchP2 : Chars → Option Chars
  | [] => none
  | c :: cs => p2AtPos (c :: cs) <|> searchP2 cs

/-- The function _extract_txn_id of zenorc.py lines 219 to 233: the
patterns are tried over the body in their fixed order, the first
capturing group of the first one that matches is returned, and when no
pattern matches the fallback is the prefix TXN followed by the decimal
representation of the whole-second clock value. -/
def extract_txn_id (body : Chars) (now : Nat) : Chars :=
  match searchP1 body with
  | some g => g
  | none =>
    match searchP2 body with
    | some g => g
    | none => "TXN".data ++ (Nat.repr now).data

/-! ### Declarative reading of the regular expressions

The following predicates spell out what a match of each pattern is: an
explicit decomposition of the input, read off the pattern text.  The
theorems below prove them equivalent to the executable matchers. -/

/-- Case-insensitive equality of two character lists. -/
def eqCIL : Chars → Chars → Bool
  | [], [] => true
  | p :: ps, c :: cs => eqCI p c && eqCIL ps cs
  | _, _ => false

def AllWS (w : Chars) : Prop := ∀ c ∈ w, isWS c = true

def AllCS (w : Chars) : Prop := ∀ c ∈ w, isCS c = true

def AllDigits (w : Chars) : Prop := ∀ c ∈ w, isDigitC c = true

/-- Word boundary after a word character: the rest is empty or starts
with a non-word character. -/
def BoundaryOK : Chars → Prop
  | [] => True
  | c :: _ => isWordChar c = false

/-- The captured digit run is maximal: no digit follows it. -/
def NotDigitHead : Chars → Prop
  | [] => True
  | c :: _ => isDigitC c = false

/-- A currency symbol or code: the rupee sign, rs with an optional dot,
or inr, case-insensitive. -/
def AmtPrefixOK (p : Chars) : Prop :=
  eqCIL p "₹".data = true ∨ eqCIL p "rs.".data = true ∨
  eqCIL p "rs".data = true ∨ eqCIL p "inr".data = true

/-- The optional decimal suffix of the amount: nothing, or a dot or a
comma followed by two zeros. -/
def AmtSuffixOK (s : Chars) : Prop := s = [] ∨ s = ".00".data ∨ s = ",00".data

/-- A match of the amount pattern starting at the head of the input:
currency prefix, optional separators (whitespace, then commas or spaces,
then whitespace), the exact amount 5, the optional decimal suffix, and a
word boundary. -/
def AmtMatchAt (cs : Chars) : Prop :=
  ∃ p w1 m w2 s rest,
    cs = p ++ w1 ++ m ++ w2 ++ '5' :: (s ++ rest) ∧
    AmtPrefixOK p ∧ AllWS w1 ∧ AllCS m ∧ AllWS w2 ∧ AmtSuffixOK s ∧ BoundaryOK rest

/-- The amount pattern matches somewhere in the body. -/
def AmtMatch (cs : Chars) : Prop := ∃ pre mid, cs = pre ++ mid ∧ AmtMatchAt mid

/-- Declarative substring containment, the meaning of the Python in
operator. -/
def HasSub (needle cs : Chars) : Prop := ∃ pre post, cs = pre ++ needle ++ post

/-- The optional alternatives after Reference in the first pattern. -/
def P1OptOK (o : Chars) : Prop :=
  eqCIL o "no.".data = true ∨ eqCIL o "no".data = true ∨
  eqCIL o "number".data = true ∨ o = []

/-- The optional word is in the second pattern. -/
def P2OptOK (o : Chars) : Prop := eqCIL o "is".data = true ∨ o = []

/-- The optional colon or hyphen before the digits. -/
def PunctOK (p : Chars) : Prop := p = [':'] ∨ p = ['-'] ∨ p = []

/-- The shared tail of both reference patterns: whitespace, optional
punctuation, whitespace, then the captured maximal run of at least eight
digits. -/
def RefTail (cs g : Chars) : Prop :=
  ∃ w2 p w3 rest, cs = w2 ++ (p ++ (w3 ++ (g ++ rest))) ∧ AllWS w2 ∧ PunctOK p ∧
    AllWS w3 ∧ AllDigits g ∧ 8 ≤ g.length ∧ NotDigitHead rest

/-- A match of the first reference pattern at the head of the input,
capturing g. -/
def P1MatchAt (cs g : Chars) : Prop :=
  ∃ ref w1 o tail, cs = ref ++ (w1 ++ (o ++ tail)) ∧
    eqCIL ref "reference".data = true ∧ AllWS w1 ∧ P1OptOK o ∧ RefTail tail g

/-- A match of the second reference pattern at the head of the input,
capturing g. -/
def P2MatchAt (cs g : Chars) : Prop :=
  ∃ lit w1 o tail, cs = lit ++ (w1 ++ (o ++ tail)) ∧
    eqCIL lit "transaction reference number".data = true ∧ AllWS w1 ∧
    P2OptOK o ∧ RefTail tail g

instance instDecAllWS (w : Chars) : Decidable (AllWS w) :=
  List.decidableBAll _ w

instance instDecAllCS (w : Chars) : Decidable (AllCS w) :=
  List.decidableBAll _ w

instance instDecAllDigits (w : Chars) : Decidable (AllDigits w) :=
  List.decidableBAll _ w

instance instDecBoundaryOK : (cs : Chars) → Decidable (BoundaryOK cs)
  | [] => isTrue True.intro
  | c :: _ => inferInstanceAs (Decidable (isWordChar c = false))

instance instDecNotDigitHead : (cs : Chars) → Decidable (NotDigitHead cs)
  | [] => isTrue True.intro
  | c :: _ => inferInstanceAs (Decidable (isDigitC c = false))

/-- The first pattern matches somewhere in the body, capturing g. -/
def P1Match (cs g : Chars) : Prop := ∃ pre mid, cs = pre ++ mid ∧ P1MatchAt mid g

/-- The second pattern matches somewhere in the body, capturing g. -/
def P2Match (cs g : Chars) : Prop := ∃ pre mid, cs = pre ++ mid ∧ P2MatchAt mid g

/-! ### The producer and consumer loops of zenorc.py

main_loop (lines 330 to 348) and processor (lines 300 to 328) run in
separate threads and share the queue, the status mapping, the
seen_txn_ids set and the last_processed timestamp.  The step relation
below splits each loop iteration into its individual shared-state
writes, so that every interleaving of the two threads is covered; a
separate tick step lets the clock advance between any two writes.  The
one write pair taken as a single step is the final status write and the
last_processed stamp closing a consumer iteration: last_processed is
read and written only by the consumer itself, so no other thread can
observe the intermediate state between those two writes. -/

inductive TxStatus
  | queued
  | processing
  | completed
  | failed
deriving DecidableEq

/-- Where the producer loop stands inside one iteration of its body. -/
inductive ProdPhase
  | idle
  | toLog (txn : String)
  | toAppend (txn : String)
deriving DecidableEq

/-- Where the consumer loop stands inside one iteration of its body. -/
inductive ConsPhase
  | idle
  | ready
  | popped (txn : String)
  | processing (txn : String)
deriving DecidableEq

/-- log_payment of zenorc.py lines 136 to 152, restricted to its effect
on the seen_txn_ids set: the id is added only when the ledger append
succeeds; when the append raises, the handler only logs the failure and
the set is unchanged. -/
def log_payment (appendOk : Bool) (txn : String) (seen : String → Bool) : String → Bool :=
  if appendOk then fun y => if y = txn then true else seen y else seen

/-- The shared state of the two threads. -/
structure SysState where
  queue : List String
  status : String → Option TxStatus
  seenTxnIds : String → Bool
  clock : Nat
  lastProcessed : Nat
  prod : ProdPhase
  cons : ConsPhase

/-- The state at thread start: empty queue, empty status mapping and
last_processed equal to zero. -/
def initState : SysState :=
  ⟨[], fun _ => none, fun _ => false, 0, 0, .idle, .idle⟩

/-- The branch taken at the head of the processor loop (zenorc.py lines
309 to 319): sleep when the queue is empty, wait when the cooldown has
not elapsed, otherwise dequeue. -/
inductive CDecision
  | sleepEmpty
  | waitCooldown
  | dequeue
deriving DecidableEq

def consumerDecision (cooldown : Nat) (s : SysState) : CDecision :=
  if s.queue = [] then .sleepEmpty
  else if s.clock - s.lastProcessed < cooldown then .waitCooldown
  else .dequeue

/-- One shared-state step of either thread, or a clock tick. -/
inductive Step (cooldown : Nat) : SysState → SysState → Prop
  | tick (s : SysState) :
      Step cooldown s { s with clock := s.clock + 1 }
  | prodSkip (s : SysState) :
      s.prod = .idle →
      Step cooldown s s
  | prodBegin (s : SysState) (txn : String) :
      s.prod = .idle → txn ≠ "" → s.status txn = none →
      Step cooldown s
        { s with status := fun y => if y = txn then some .queued else s.status y,
                 prod := .toLog txn }
  | prodLog (s : SysState) (txn : String) (appendOk : Bool) :
      s.prod = .toLog txn →
      Step cooldown s
        { s with seenTxnIds := log_payment appendOk txn s.seenTxnIds,
                 prod := .toAppend txn }
  | prodAppend (s : SysState) (txn : String) :
      s.prod = .toAppend txn →
      Step cooldown s { s with queue := s.queue ++ [txn], prod := .idle }
  | consSleep (s : SysState) :
      s.cons = .idle → consumerDecision cooldown s = .sleepEmpty →
      Step cooldown s s
  | consWait (s : SysState) :
      s.cons = .idle → consumerDecision cooldown s = .waitCooldown →
      Step cooldown s s
  | consCheck (s : SysState) :
      s.cons = .idle → consumerDecision cooldown s = .dequeue →
      Step cooldown s { s with cons := .ready }
  | consPop (s : SysState) (txn : String) (rest : List String) :
      s.cons = .ready → s.queue = txn :: rest →
      Step cooldown s { s with queue := rest, cons := .popped txn }
  | consMark (s : SysState) (txn : String) :
      s.cons = .popped txn →
      Step cooldown s
        { s with status := fun y => if y = txn then some .processing else s.status y,
                 cons := .processing txn }
  | consFinish (s : SysState) (txn : String) (ok : Bool) :
      s.cons = .processing txn →
      Step cooldown s
        { s with status := fun y =>
                   if y = txn then some (if ok then .completed else .failed) else s.status y,
                 cons := .idle,
                 lastProcessed := s.clock }

/-- States reachable from the initial state. -/
inductive Reachable (cooldown : Nat) : SysState → Prop
  | init : Reachable cooldown initState
  | step {s s' : SysState} :
      Reachable cooldown s → Step cooldown s s' → Reachable cooldown s'

def ProdHolds (p : ProdPhase) (x : String) : Prop := p = .toLog x ∨ p = .toAppend x

def ConsHolds (c : ConsPhase) (x : String) : Prop := c = .popped x ∨ c = .processing x

/-- The inductive invariant of the pipeline. -/
structure Inv (cooldown : Nat) (s : SysState) : Prop where
  queueStatus : ∀ x ∈ s.queue, s.status x = some .queued
  queueNodup : s.queue.Nodup
  prodInv : ∀ x, ProdHolds s.prod x →
    s.status x = some .queued ∧ x ∉ s.queue ∧ ¬ ConsHolds s.cons x
  consPopInv : ∀ x, s.cons = .popped x →
    s.status x = some .queued ∧ x ∉ s.queue ∧ ¬ ProdHolds s.prod x
  consProcInv : ∀ x, s.cons = .processing x →
    s.status x = some .processing ∧ x ∉ s.queue ∧ ¬ ProdHolds s.prod x
  readyInv : s.cons = .ready → s.queue ≠ [] ∧ s.lastProcessed + cooldown ≤ s.clock
  lastLe : s.lastProcessed ≤ s.clock

/-- A pop transition: the consumer moves from the ready phase to holding
a just-popped transaction (only the consPop step does so). -/
def IsPopStep (s s' : SysState) : Prop :=
  s.cons = .ready ∧ ∃ txn, s'.cons = .popped txn

/-- The allowed change of one status value in one step: unchanged, or
one hop along Queued to Processing to Completed or Failed. -/
def StatusHop (v v' : TxStatus) : Prop :=
  v' = v ∨ (v = .queued ∧ v' = .processing) ∨
  (v = .processing ∧ (v' = .completed ∨ v' = .failed))

/-- One iteration of the body of main_loop (zenorc.py lines 339 to 348)
as a sequential function: when poll_email returns a new id that is not
yet in the status mapping, the id is set to Queued, log_payment runs
(appendOk telling whether the ledger append succeeded), and the id is
appended to the queue regardless of that outcome. -/
def main_loop_iter : Option String → Bool → SysState → SysState
  | none, _, s => s
  | some txn, appendOk, s =>
    if txn ≠ "" ∧ s.status txn = none then
      { s with status := fun y => if y = txn then some .queued else s.status y,
               seenTxnIds := log_payment appendOk txn s.seenTxnIds,
               queue := s.queue ++ [txn] }
    else s

/-! ### send_mqtt of zenorc.py lines 157 to 206 -/

/-- The behaviour of the broker on one connection attempt. -/
inductive AttemptOutcome
  | connectError
  | ackTimeout
  | publishError
  | publishOk
deriving DecidableEq

/-- What one iteration of the retry loop did, as observable on the exit
path of the attempt. -/
structure AttemptTrace where
  loopStarted : Bool
  connected : Bool
  tornDown : Bool
  succeeded : Bool
deriving DecidableEq

/-- One iteration of the retry loop: the body runs up to the failure
point of the outcome, then the finally block runs; its guard stops the
network loop and disconnects only when client.is_connected() holds,
which is the case exactly when the connection acknowledgment arrived
(the publish branches), not on a connect error or an acknowledgment
timeout. -/
def runAttempt (o : AttemptOutcome) : AttemptTrace :=
  let loopStarted := o ≠ .connectError
  let connected := o = .publishError ∨ o = .publishOk
  { loopStarted := loopStarted
    connected := connected
    tornDown := connected
    succeeded := o = .publishOk }

/-- The retry loop of send_mqtt from a given attempt number with a given
number of attempts remaining: stop with True at the first successful
publish, otherwise try the next attempt, and give up with False when the
attempts are exhausted.  The trace of every attempt made is returned. -/
def sendMqttFrom (behaviour : Nat → AttemptOutcome) : Nat → Nat → Bool × List AttemptTrace
  | _, 0 => (false, [])
  | attempt, n + 1 =>
    if (runAttempt (behaviour attempt)).succeeded then
      (true, [runAttempt (behaviour attempt)])
    else
      ((sendMqttFrom behaviour (attempt + 1) n).1,
        runAttempt (behaviour attempt) :: (sendMqttFrom behaviour (attempt + 1) n).2)

/-- send_mqtt with its attempt counter starting at one. -/
def send_mqtt (behaviour : Nat → AttemptOutcome) (maxRetries : Nat) : Bool × List AttemptTrace :=
  sendMqttFrom behaviour 1 maxRetries

/-- The broker behaviour of the specified scenario: the first two
connection attempts fail, the third succeeds. -/
def mqttScenario : Nat → AttemptOutcome :=
  fun i => if i ≤ 2 then .connectError else .publishOk

/-! ### tz_mumbai of zenorc.py lines 94 to 99 -/

/-- The outcome of calling tz_mumbai. -/
inductive TzResult
  | zone (name : String)
  | nameErrorRaised
deriving DecidableEq

/-- The names bound at module level in zenorc.py: the imports of lines
14 to 31 (from zoneinfo only ZoneInfo is imported), the configuration
constants, the global state and the function names.
ZoneInfoNotFoundError is not among them, and it is not a Python builtin
either. -/
def zenorcModuleNames : List String :=
  ["annotations", "email", "imaplib", "os", "re", "threading", "time", "uuid",
   "deque", "datetime", "Optional", "ZoneInfo", "gspread", "mqtt",
   "load_dotenv", "ServiceAccountCredentials", "EMAIL_ID", "EMAIL_PASSWORD",
   "MQTT_BROKER", "MQTT_PORT", "MQTT_USERNAME", "MQTT_PASSWORD", "MQTT_TOPIC",
   "CLIENT_ID", "GSHEET_URL", "GSHEET_CREDS_PATH", "SEARCH_STRINGS",
   "COOLDOWN_SECONDS", "imap_lock", "seen_uids", "seen_txn_ids", "queue",
   "status", "last_processed", "log", "tz_mumbai", "log_payment", "send_mqtt",
   "poll_email", "processor", "main_loop", "start"]

/-- tz_mumbai of zenorc.py lines 94 to 99.  When the regional zone is
available, ZoneInfo succeeds and the zone is returned.  When the lookup
raises ZoneInfoNotFoundError, the interpreter evaluates the name in the
except clause to match the exception; that name is not bound in the
module, so a NameError is raised instead of the fallback running. -/
def tz_mumbai (mumbaiAvailable : Bool) : TzResult :=
  if mumbaiAvailable then .zone "Asia/Mumbai"
  else if zenorcModuleNames.contains "ZoneInfoNotFoundError" then .zone "UTC"
  else .nameErrorRaised

end Zenorc

namespace RepoRanger

/-! ### Path handling of src/main.py

save_code_tool (lines 105 to 109) and download_file (lines 255 to 260)
both compute os.path.join(OUTPUT_DIR, os.path.basename(filename)) and
access only that path. -/

/-- os.path.basename on a POSIX system: everything after the last
slash. -/
def basename (s : List Char) : List Char :=
  ((s.reverse).takeWhile (fun c => c ≠ '/')).reverse

/-- os.path.join with a single extra component on a POSIX system. -/
def joinPath (a b : List Char) : List Char :=
  if b.head? = some '/' then b
  else if a = [] ∨ a.getLast? = some '/' then a ++ b
  else a ++ '/' :: b

def OUTPUT_DIR : List Char := "ai_agents".data

/-- The path save_code_tool writes and download_file serves for a given
filename argument. -/
def targetPath (filename : List Char) : List Char :=
  joinPath OUTPUT_DIR (basename filename)

/-- Split a path into its slash-separated segments. -/
def segsOf : List Char → List (List Char)
  | [] => [[]]
  | c :: cs =>
    if c = '/' then [] :: segsOf cs
    else
      match segsOf cs with
      | s :: ss => (c :: s) :: ss
      | [] => [[c]]

/-- Resolve the empty, dot and dot-dot segments of a relative path
against the process working directory, the way the operating system
resolves the path when it is opened. -/
def resolveSegs (segs : List (List Char)) : List (List Char) :=
  segs.foldl
    (fun acc seg =>
      if seg = [] ∨ seg = ['.'] then acc
      else if seg = ['.', '.'] then acc.dropLast
      else acc ++ [seg])
    []

/-- The first path resolves to a location strictly inside the directory
given by the second path. -/
def strictlyInside (dir path : List Char) : Bool :=
  let d := resolveSegs (segsOf dir)
  let p := resolveSegs (segsOf path)
  d.isPrefixOf p && d ≠ p

/-! ### create_context of src/main.py lines 78 to 103 -/

/-- One file seen by the os.walk loop: its name, its content, and
whether opening and reading it succeeds (the except around the read
turns a failure into a skip). -/
structure WalkFile where
  name : List Char
  content : List Char
  readOk : Bool

def ALLOWED_EXTENSIONS : List (List Char) :=
  [".py".data, ".js".data, ".ts".data, ".jsx".data, ".tsx".data, ".html".data,
   ".css".data, ".java".data, ".cpp".data, ".md".data, ".json".data,
   ".sql".data, ".yaml".data, ".yml".data, ".sh".data, ".rb".data, ".go".data,
   ".rs".data, ".php".data, ".cs".data, ".swift".data, ".kt".data]

/-- The extension part of os.path.splitext for a plain file name: the
part from the last dot on, except that a name whose part before the last
dot is all dots has no extension. -/
def splitextExt (name : List Char) : List Char :=
  let r := name.reverse
  let pre := r.takeWhile (fun c => c ≠ '.')
  match r.drop pre.length with
  | [] => []
  | _ :: before =>
    if before.any (fun c => c ≠ '.') then '.' :: pre.reverse else []

def MAX_SIZE : Nat := 2 * 1024 * 1024

/-- The text appended for one file. -/
def mkChunk (name content : List Char) : List Char :=
  "\n\n--- FILE: ".data ++ name ++ " ---\n".data ++ content ++
    "\n--- END FILE ---\n".data

/-- The inner loop of create_context over the files of one directory,
carrying current_size and the accumulated content.  A chunk that would
push the size past MAX_SIZE triggers the break, leaving the remaining
files of this directory unprocessed; a failed read is skipped. -/
def processDir : List WalkFile → Nat → List Char → Nat × List Char
  | [], size, content => (size, content)
  | f :: fs, size, content =>
    if splitextExt f.name ∈ ALLOWED_EXTENSIONS then
      if f.readOk then
        let chunk := mkChunk f.name f.content
        if MAX_SIZE < size + chunk.length then (size, content)
        else processDir fs (size + chunk.length) (content ++ chunk)
      else processDir fs size content
    else processDir fs size content

/-- create_context over the directories produced by os.walk: the outer
loop keeps walking the remaining directories after an inner break.  The
result is the final current_size and the content that is written to the
context file. -/
def create_context (dirs : List (List WalkFile)) : Nat × List Char :=
  dirs.foldl (fun acc d => processDir d acc.1 acc.2) (0, [])

/-! ### clone_github_repo and the ingest endpoint of src/main.py -/

/-- A Python exception value as relevant to the ingest endpoint.
HTTPException is a subclass of Exception, so an except Exception clause
catches it. -/
inductive PyExc
  | valueError (msg : String)
  | httpException (code : Nat) (msg : String)
  | otherError (msg : String)
deriving DecidableEq

def pyStr : PyExc → String
  | .valueError m => m
  | .httpException _ m => m
  | .otherError m => m

/-- clone_github_repo of src/main.py lines 64 to 76: the URL check
raises ValueError before the git subprocess is invoked.  gitOk abstracts
the outcome of the subprocess; the returned Boolean records whether git
was invoked. -/
def clone_github_repo (url : List Char) (gitOk : Bool) : Except PyExc Unit × Bool :=
  if ¬ Zenorc.startsWithL "https://github.com/".data url = true then
    (.error (.valueError "Security Error: Only https github.com URLs are allowed."), false)
  else if gitOk then (.ok (), true)
  else (.error (.otherError "Git Clone Failed"), true)

/-- The body of the outer try of ingest_endpoint (src/main.py lines 134
to 155): for an http-prefixed payload the clone runs inside an inner try
whose except ValueError clause raises HTTPException(400); any other
exception propagates.  restOk abstracts whether the rest of the body
(create_context, upload, polling) succeeds. -/
def ingestBody (data : List Char) (gitOk restOk : Bool) : Except PyExc Unit :=
  if Zenorc.startsWithL "http".data data = true then
    match (clone_github_repo data gitOk).1 with
    | .error (.valueError m) => .error (.httpException 400 m)
    | .error e => .error e
    | .ok _ => if restOk then .ok () else .error (.otherError "ingest failed")
  else if restOk then .ok () else .error (.otherError "ingest failed")

/-- ingest_endpoint: the body runs inside try ... except Exception as e:
raise HTTPException(status_code=500, detail=str(e)).  The except clause
catches every exception raised inside the try, including the
HTTPException(400) raised by the inner handler, and re-raises it with
status 500. -/
def ingest_endpoint (data : List Char) (gitOk restOk : Bool) : Except PyExc Unit :=
  match ingestBody data gitOk restOk with
  | .ok u => .ok u
  | .error e => .error (.httpException 500 (pyStr e))

/-- The HTTP status the client receives: 200 on success, the code of a
raised HTTPException, and 500 for any other exception reaching the
framework. -/
def responseStatus : Except PyExc Unit → Nat
  | .ok _ => 200
  | .error (.httpException c _) => c
  | .error _ => 500

end RepoRanger

/-! ## Helper lemmas -/

namespace Zenorc

theorem eqCI_comm (a b : Char) : eqCI a b = eqCI b a := by
  unfold eqCI; exact BEq.comm

theorem stripCI_sound : ∀ {pat cs r : Chars}, stripCI pat cs = some r →
    ∃ t, cs = t ++ r ∧ eqCIL t pat = true := by
  intro pat
  induction pat with
  | nil =>
    intro cs r h
    simp only [stripCI, Option.some.injEq] at h
    exact ⟨[], by simp [h], rfl⟩
  | cons p ps ih =>
    intro cs r h
    cases cs with
    | nil => simp [stripCI] at h
    | cons c cs' =>
      simp only [stripCI] at h
      by_cases hpc : eqCI p c = true
      · rw [if_pos hpc] at h
        obtain ⟨t, ht, he⟩ := ih h
        refine ⟨c :: t, by simp [ht], ?_⟩
        simp only [eqCIL, Bool.and_eq_true]
        exact ⟨by rw [eqCI_comm]; exact hpc, he⟩
      · rw [if_neg hpc] at h
        exact absurd h (by simp)

theorem stripCI_complete : ∀ {t pat : Chars}, eqCIL t pat = true → ∀ (r : Chars),
    stripCI pat (t ++ r) = some r := by
  intro t
  induction t with
  | nil =>
    intro pat h r
    cases pat with
    | nil => rfl
    | cons p ps => simp [eqCIL] at h
  | cons c t' ih =>
    intro pat h r
    cases pat with
    | nil => simp [eqCIL] at h
    | cons p ps =>
      simp only [eqCIL, Bool.and_eq_true] at h
      have hcp : eqCI p c = true := by rw [eqCI_comm]; exact h.1
      simp only [List.cons_append, stripCI, if_pos hcp]
      exact ih h.2 r

theorem eqCIL_length : ∀ {t pat : Chars}, eqCIL t pat = true → t.length = pat.length := by
  intro t
  induction t with
  | nil => intro pat h; cases pat with
    | nil => rfl
    | cons p ps => simp [eqCIL] at h
  | cons c t' ih => intro pat h; cases pat with
    | nil => simp [eqCIL] at h
    | cons p ps =>
      simp only [eqCIL, Bool.and_eq_true] at h
      simp [ih h.2]

theorem dropWhile_append_all {p : Char → Bool} :
    ∀ {l : List Char}, (∀ c ∈ l, p c = true) →
    ∀ (t : List Char), (l ++ t).dropWhile p = t.dropWhile p := by
  intro l
  induction l with
  | nil => intro _ t; rfl
  | cons a l' ih =>
    intro h t
    have ha : p a = true := h a (by simp)
    simp only [List.cons_append, List.dropWhile_cons, ha, if_true]
    exact ih (fun c hc => h c (by simp [hc])) t

theorem takeWhile_append_all {p : Char → Bool} :
    ∀ {l : List Char}, (∀ c ∈ l, p c = true) →
    ∀ (t : List Char), (l ++ t).takeWhile p = l ++ t.takeWhile p := by
  intro l
  induction l with
  | nil => intro _ t; rfl
  | cons a l' ih =>
    intro h t
    have ha : p a = true := h a (by simp)
    simp only [List.cons_append, List.takeWhile_cons, ha, if_true]
    rw [ih (fun c hc => h c (by simp [hc])) t]

theorem dropWhile_head_false {p : Char → Bool} :
    ∀ {l : List Char} {c : Char} {cs : List Char},
    l.dropWhile p = c :: cs → p c = false := by
  intro l
  induction l with
  | nil => intro c cs h; simp [List.dropWhile] at h
  | cons a l' ih =>
    intro c cs h
    by_cases hpa : p a = true
    · rw [List.dropWhile_cons, if_pos hpa] at h; exact ih h
    · rw [List.dropWhile_cons, if_neg hpa] at h
      injection h with h1 _
      subst h1
      simpa using hpa

theorem dropWhile_cons_false {p : Char → Bool} {c : Char} (l : List Char)
    (h : p c = false) : (c :: l).dropWhile p = c :: l := by
  rw [List.dropWhile_cons, if_neg (by simp [h])]

theorem takeWhile_cons_false {p : Char → Bool} {c : Char} (l : List Char)
    (h : p c = false) : (c :: l).takeWhile p = [] := by
  rw [List.takeWhile_cons, if_neg (by simp [h])]

theorem takeWhile_all_of_boundary {p : Char → Bool} {g t : List Char}
    (hg : ∀ c ∈ g, p c = true)
    (ht : ∀ c cs, t = c :: cs → p c = false) :
    (g ++ t).takeWhile p = g := by
  rw [takeWhile_append_all hg]
  cases t with
  | nil => simp
  | cons c cs => rw [takeWhile_cons_false _ (ht c cs rfl)]; simp

theorem dropWhile_all_of_boundary {p : Char → Bool} {g t : List Char}
    (hg : ∀ c ∈ g, p c = true)
    (ht : ∀ c cs, t = c :: cs → p c = false) :
    (g ++ t).dropWhile p = t := by
  rw [dropWhile_append_all hg]
  cases t with
  | nil => simp
  | cons c cs => exact dropWhile_cons_false _ (ht c cs rfl)

theorem mem_of_mem_dropWhile {p : Char → Bool} {l : List Char} {c : Char}
    (h : c ∈ l.dropWhile p) : c ∈ l :=
  (List.dropWhile_sublist p).mem h

/-! ## Character class facts -/

theorem atBoundary_iff {cs : Chars} : atBoundary cs = true ↔ BoundaryOK cs := by
  cases cs <;> simp [atBoundary, BoundaryOK]

theorem lowerChar_of_isWS {c : Char} (h : isWS c = true) : lowerChar c = c := by
  simp only [isWS, Bool.or_eq_true, beq_iff_eq] at h
  rcases h with ((((h | h) | h) | h) | h) | h <;> subst h <;> decide

theorem lowerChar_of_isCS {c : Char} (h : isCS c = true) : lowerChar c = c := by
  simp only [isCS, Bool.or_eq_true, beq_iff_eq] at h
  rcases h with h | h <;> subst h <;> decide

theorem not_isWS_of_isDigitC {c : Char} (h : isDigitC c = true) : isWS c = false := by
  cases hw : isWS c
  · rfl
  · exfalso
    simp only [isWS, Bool.or_eq_true, beq_iff_eq] at hw
    rcases hw with ((((h' | h') | h') | h') | h') | h' <;> subst h' <;> exact absurd h (by decide)

theorem not_isCS_of_isDigitC {c : Char} (h : isDigitC c = true) : isCS c = false := by
  cases hw : isCS c
  · rfl
  · exfalso
    simp only [isCS, Bool.or_eq_true, beq_iff_eq] at hw
    rcases hw with h' | h' <;> subst h' <;> exact absurd h (by decide)

/-- A character case-insensitively equal to a lower-case non-whitespace
character is itself not whitespace. -/
theorem not_isWS_of_eqCI {c p : Char} (h : eqCI c p = true) (hp : lowerChar p = p)
    (hpw : isWS p = false) : isWS c = false := by
  cases hw : isWS c
  · rfl
  · exfalso
    have hc : lowerChar c = c := lowerChar_of_isWS hw
    simp only [eqCI, beq_iff_eq] at h
    rw [hc, hp] at h
    subst h
    simp [hw] at hpw

/-! ## Equivalence of the amount matcher with its declarative reading -/

theorem amtSuffix_sound {cs : Chars} (h : amtSuffix cs = true) :
    ∃ s rest, cs = s ++ rest ∧ AmtSuffixOK s ∧ BoundaryOK rest := by
  rw [amtSuffix, Bool.or_eq_true] at h
  rcases h with hm | hb
  · rcases cs with _ | ⟨c, _ | ⟨d1, _ | ⟨d2, rest⟩⟩⟩
    · exact Bool.noConfusion hm
    · exact Bool.noConfusion hm
    · exact Bool.noConfusion hm
    · simp only [amtGroup, Bool.and_eq_true, Bool.or_eq_true, beq_iff_eq] at hm
      obtain ⟨⟨⟨hc, h1⟩, h2⟩, hb⟩ := hm
      subst h1; subst h2
      refine ⟨[c, '0', '0'], rest, rfl, ?_, atBoundary_iff.mp hb⟩
      rcases hc with rfl | rfl
      · exact Or.inr (Or.inl rfl)
      · exact Or.inr (Or.inr rfl)
  · exact ⟨[], cs, rfl, Or.inl rfl, atBoundary_iff.mp hb⟩

theorem amtSuffix_complete {s rest : Chars} (hs : AmtSuffixOK s) (hb : BoundaryOK rest) :
    amtSuffix (s ++ rest) = true := by
  have hb' : atBoundary rest = true := atBoundary_iff.mpr hb
  rcases hs with rfl | rfl | rfl
  · rw [amtSuffix, Bool.or_eq_true]; right; simpa using hb'
  · show amtSuffix ('.' :: '0' :: '0' :: rest) = true
    rw [amtSuffix, Bool.or_eq_true]; left; simp [amtGroup, hb']
  · show amtSuffix (',' :: '0' :: '0' :: rest) = true
    rw [amtSuffix, Bool.or_eq_true]; left; simp [amtGroup, hb']

theorem amtAfter_sound {cs : Chars} (h : amtAfter cs = true) :
    ∃ w1 m w2 t, cs = w1 ++ (m ++ (w2 ++ '5' :: t)) ∧ AllWS w1 ∧ AllCS m ∧ AllWS w2 ∧
      amtSuffix t = true := by
  simp only [amtAfter] at h
  cases h3 : ((cs.dropWhile isWS).dropWhile isCS).dropWhile isWS with
  | nil => rw [h3] at h; exact Bool.noConfusion h
  | cons c rest =>
    rw [h3] at h
    simp only [Bool.and_eq_true, beq_iff_eq] at h
    obtain ⟨rfl, hsuf⟩ := h
    have e1 : cs = cs.takeWhile isWS ++ cs.dropWhile isWS :=
      (List.takeWhile_append_dropWhile isWS cs).symm
    have e2 : cs.dropWhile isWS =
        (cs.dropWhile isWS).takeWhile isCS ++ (cs.dropWhile isWS).dropWhile isCS :=
      (List.takeWhile_append_dropWhile isCS (cs.dropWhile isWS)).symm
    have e3 : (cs.dropWhile isWS).dropWhile isCS =
        ((cs.dropWhile isWS).dropWhile isCS).takeWhile isWS ++ ('5' :: rest) := by
      conv_lhs => rw [← List.takeWhile_append_dropWhile isWS
        ((cs.dropWhile isWS).dropWhile isCS)]
      rw [h3]
    refine ⟨cs.takeWhile isWS, (cs.dropWhile isWS).takeWhile isCS,
      ((cs.dropWhile isWS).dropWhile isCS).takeWhile isWS, rest, ?_, ?_, ?_, ?_, hsuf⟩
    · conv_lhs => rw [e1]
      rw [← e3, ← e2]
    · exact fun c hc => List.mem_takeWhile_imp hc
    · exact fun c hc => List.mem_takeWhile_imp hc
    · exact fun c hc => List.mem_takeWhile_imp hc

/-- The three greedy separator stars land exactly on the character after
the separators, for every valid decomposition of the separator text. -/
theorem dropWS_CS_WS {w1 m w2 : Chars} (h1 : AllWS w1) (hm : AllCS m) (h2 : AllWS w2)
    {c : Char} (hc1 : isWS c = false) (hc2 : isCS c = false) (t : Chars) :
    (((w1 ++ (m ++ (w2 ++ c :: t))).dropWhile isWS).dropWhile isCS).dropWhile isWS
      = c :: t := by
  have hc1' : ∀ c' cs', (c :: t : Chars) = c' :: cs' → isWS c' = false := by
    intro c' cs' h
    injection h with h1 _
    rw [← h1]; exact hc1
  have hc2' : ∀ c' cs', (c :: t : Chars) = c' :: cs' → isCS c' = false := by
    intro c' cs' h
    injection h with h1 _
    rw [← h1]; exact hc2
  have core : ((w2 ++ c :: t).dropWhile isCS).dropWhile isWS = c :: t := by
    have hw2' : w2 = w2.takeWhile isCS ++ w2.dropWhile isCS :=
      (List.takeWhile_append_dropWhile isCS w2).symm
    have hw21 : ∀ x ∈ w2.takeWhile isCS, isCS x = true :=
      fun x hx => List.mem_takeWhile_imp hx
    conv_lhs => rw [hw2', List.append_assoc]
    rw [dropWhile_append_all hw21]
    cases hw22 : w2.dropWhile isCS with
    | nil =>
      rw [List.nil_append, dropWhile_cons_false _ hc2, dropWhile_cons_false _ hc1]
    | cons e w22 =>
      have he : isCS e = false := dropWhile_head_false hw22
      have hallWS : ∀ x ∈ e :: w22, isWS x = true := by
        intro x hx
        refine h2 x ?_
        rw [← hw22] at hx
        exact mem_of_mem_dropWhile hx
      rw [List.cons_append, dropWhile_cons_false _ he, ← List.cons_append,
        dropWhile_append_all hallWS, dropWhile_cons_false _ hc1]
  rw [dropWhile_append_all h1]
  have hmsplit : m = m.takeWhile isWS ++ m.dropWhile isWS :=
    (List.takeWhile_append_dropWhile isWS m).symm
  have hm1 : ∀ x ∈ m.takeWhile isWS, isWS x = true := fun x hx => List.mem_takeWhile_imp hx
  conv_lhs => rw [hmsplit, List.append_assoc]
  rw [dropWhile_append_all hm1]
  cases hm2 : m.dropWhile isWS with
  | nil =>
    rw [List.nil_append, dropWhile_all_of_boundary h2 hc1', dropWhile_cons_false _ hc2,
      dropWhile_cons_false _ hc1]
  | cons d m2 =>
    have hd : isWS d = false := dropWhile_head_false hm2
    have hallCS : ∀ x ∈ d :: m2, isCS x = true := by
      intro x hx
      refine hm x ?_
      rw [← hm2] at hx
      exact mem_of_mem_dropWhile hx
    rw [List.cons_append, dropWhile_cons_false _ hd, ← List.cons_append,
      dropWhile_append_all hallCS]
    exact core

theorem amtAfter_complete {w1 m w2 s rest : Chars} (h1 : AllWS w1) (hm : AllCS m)
    (h2 : AllWS w2) (hs : AmtSuffixOK s) (hb : BoundaryOK rest) :
    amtAfter (w1 ++ (m ++ (w2 ++ '5' :: (s ++ rest)))) = true := by
  simp only [amtAfter]
  rw [dropWS_CS_WS h1 hm h2 (by decide) (by decide)]
  simp [amtSuffix_complete hs hb]

theorem branch_sound {pat cs : Chars}
    (h : (match stripCI pat cs with | some r => amtAfter r | none => false) = true) :
    ∃ t r, cs = t ++ r ∧ eqCIL t pat = true ∧ amtAfter r = true := by
  cases hs : stripCI pat cs with
  | none => rw [hs] at h; exact Bool.noConfusion h
  | some r =>
    rw [hs] at h
    obtain ⟨t, ht, he⟩ := stripCI_sound hs
    exact ⟨t, r, ht, he, h⟩

theorem amtAtPos_sound {cs : Chars} (h : amtAtPos cs = true) : AmtMatchAt cs := by
  unfold amtAtPos at h
  rw [Bool.or_eq_true, Bool.or_eq_true, Bool.or_eq_true] at h
  have assemble : ∀ {t r : Chars}, cs = t ++ r → AmtPrefixOK t → amtAfter r = true →
      AmtMatchAt cs := by
    intro t r heq hp hr
    obtain ⟨u1, u2, u3, tl, hre, hw1, hcs', hw2, hsuf⟩ := amtAfter_sound hr
    obtain ⟨s, rest, htl, hsOK, hbOK⟩ := amtSuffix_sound hsuf
    refine ⟨t, u1, u2, u3, s, rest, ?_, hp, hw1, hcs', hw2, hsOK, hbOK⟩
    rw [heq, hre, htl]
    simp [List.append_assoc]
  rcases h with ((h | h) | h) | h
  · obtain ⟨t, r, ht, he, hr⟩ := branch_sound h
    exact assemble ht (Or.inl he) hr
  · obtain ⟨t, r, ht, he, hr⟩ := branch_sound h
    exact assemble ht (Or.inr (Or.inl he)) hr
  · obtain ⟨t, r, ht, he, hr⟩ := branch_sound h
    exact assemble ht (Or.inr (Or.inr (Or.inl he))) hr
  · obtain ⟨t, r, ht, he, hr⟩ := branch_sound h
    exact assemble ht (Or.inr (Or.inr (Or.inr he))) hr

theorem amtAtPos_complete {cs : Chars} (h : AmtMatchAt cs) : amtAtPos cs = true := by
  obtain ⟨p, w1, m, w2, s, rest, rfl, hp, hw1, hm, hw2, hs, hb⟩ := h
  have key : ∀ {pat : Chars}, eqCIL p pat = true →
      stripCI pat (p ++ w1 ++ m ++ w2 ++ '5' :: (s ++ rest))
        = some (w1 ++ (m ++ (w2 ++ '5' :: (s ++ rest)))) := by
    intro pat hpat
    have h0 := stripCI_complete hpat (w1 ++ (m ++ (w2 ++ '5' :: (s ++ rest))))
    simpa [List.append_assoc] using h0
  have hafter : amtAfter (w1 ++ (m ++ (w2 ++ '5' :: (s ++ rest)))) = true :=
    amtAfter_complete hw1 hm hw2 hs hb
  unfold amtAtPos
  rcases hp with hp | hp | hp | hp
  · rw [Bool.or_eq_true, Bool.or_eq_true, Bool.or_eq_true]
    left; left; left
    rw [key hp]; exact hafter
  · rw [Bool.or_eq_true, Bool.or_eq_true, Bool.or_eq_true]
    left; left; right
    rw [key hp]; exact hafter
  · rw [Bool.or_eq_true, Bool.or_eq_true, Bool.or_eq_true]
    left; right
    rw [key hp]; exact hafter
  · rw [Bool.or_eq_true, Bool.or_eq_true, Bool.or_eq_true]
    right
    rw [key hp]; exact hafter

theorem amtSearch_sound : ∀ {cs : Chars}, amtSearch cs = true → AmtMatch cs := by
  intro cs
  induction cs with
  | nil => intro h; exact Bool.noConfusion h
  | cons c cs' ih =>
    intro h
    rw [amtSearch, Bool.or_eq_true] at h
    rcases h with h | h
    · exact ⟨[], c :: cs', rfl, amtAtPos_sound h⟩
    · obtain ⟨pre, mid, heq, hmid⟩ := ih h
      exact ⟨c :: pre, mid, by simp [heq], hmid⟩

theorem AmtMatchAt_ne_nil {mid : Chars} (h : AmtMatchAt mid) : mid ≠ [] := by
  obtain ⟨p, w1, m, w2, s, rest, heq, _, _, _, _, _, _⟩ := h
  intro hnil
  rw [hnil] at heq
  have hlen := congrArg List.length heq
  simp [List.length_append] at hlen
  omega

theorem amtSearch_complete : ∀ (pre : Chars) {mid : Chars}, AmtMatchAt mid →
    amtSearch (pre ++ mid) = true := by
  intro pre
  induction pre with
  | nil =>
    intro mid h
    cases hm : mid with
    | nil => exact absurd hm (AmtMatchAt_ne_nil h)
    | cons c cs' =>
      subst hm
      rw [List.nil_append, amtSearch, Bool.or_eq_true]
      exact Or.inl (amtAtPos_complete h)
  | cons a pre' ih =>
    intro mid h
    rw [List.cons_append, amtSearch, Bool.or_eq_true]
    exact Or.inr (ih h)

/-! ## The substring test -/

theorem startsWithL_iff {needle cs : Chars} :
    startsWithL needle cs = true ↔ ∃ post, cs = needle ++ post := by
  induction needle generalizing cs with
  | nil => simp [startsWithL]
  | cons p ps ih =>
    cases cs with
    | nil => simp [startsWithL]
    | cons c cs' =>
      simp only [startsWithL, Bool.and_eq_true, beq_iff_eq]
      constructor
      · rintro ⟨rfl, h⟩
        obtain ⟨post, rfl⟩ := ih.mp h
        exact ⟨post, rfl⟩
      · rintro ⟨post, h⟩
        injection h with h1 h2
        exact ⟨h1.symm, ih.mpr ⟨post, h2⟩⟩

theorem containsSub_iff {needle cs : Chars} :
    containsSub needle cs = true ↔ HasSub needle cs := by
  induction cs with
  | nil =>
    simp only [containsSub, HasSub]
    rw [startsWithL_iff]
    constructor
    · rintro ⟨post, h⟩
      exact ⟨[], post, by simp [h]⟩
    · rintro ⟨pre, post, h⟩
      rcases List.append_eq_nil.mp (List.append_eq_nil.mp h.symm).1 with ⟨h1, h2⟩
      exact ⟨[], by simp [h2, (List.append_eq_nil.mp h.symm).2]⟩
  | cons c cs' ih =>
    rw [show containsSub needle (c :: cs')
        = (startsWithL needle (c :: cs') || containsSub needle cs') from rfl]
    rw [Bool.or_eq_true]
    constructor
    · rintro (h | h)
      · obtain ⟨post, hpost⟩ := startsWithL_iff.mp h
        exact ⟨[], post, by simp [hpost]⟩
      · obtain ⟨pre, post, hpp⟩ := ih.mp h
        exact ⟨c :: pre, post, by simp [hpp]⟩
    · rintro ⟨pre, post, hpp⟩
      cases pre with
      | nil =>
        left
        exact startsWithL_iff.mpr ⟨post, by simpa using hpp⟩
      | cons a pre' =>
        right
        rw [List.cons_append, List.cons_append] at hpp
        injection hpp with h1 h2
        exact ih.mpr ⟨pre', post, h2⟩

/-! ## Equivalence of the reference-pattern matchers with their
declarative reading -/

theorem notDigitHead_elim {rest : Chars} (h : NotDigitHead rest) :
    ∀ c cs, rest = c :: cs → isDigitC c = false := by
  intro c cs he
  rw [he] at h
  exact h

theorem notDigitHead_dropWhile (l : Chars) : NotDigitHead (l.dropWhile isDigitC) := by
  cases hd : l.dropWhile isDigitC with
  | nil => exact True.intro
  | cons c cs =>
    show isDigitC c = false
    exact dropWhile_head_false hd

theorem not_colon_dash_of_isDigitC {c : Char} (h : isDigitC c = true) :
    (c == ':' || c == '-') = false := by
  cases hb : (c == ':' || c == '-')
  · rfl
  · exfalso
    simp only [Bool.or_eq_true, beq_iff_eq] at hb
    rcases hb with rfl | rfl <;> exact absurd h (by decide)

theorem orElse_eq_some_iff (a b : Option Chars) (x : Chars) :
    (a <|> b) = some x ↔ a = some x ∨ (a = none ∧ b = some x) := by
  cases a <;> simp

theorem orElse_isSome (a b : Option Chars) : (a <|> b).isSome = (a.isSome || b.isSome) := by
  cases a <;> simp

theorem refCont_sound {cs g : Chars} (h : refCont cs = some g) : RefTail cs g := by
  simp only [refCont] at h
  have hw2 : ∀ x ∈ cs.takeWhile isWS, isWS x = true :=
    fun x hx => List.mem_takeWhile_imp hx
  have hcs : cs = cs.takeWhile isWS ++ cs.dropWhile isWS :=
    (List.takeWhile_append_dropWhile isWS cs).symm
  cases hr1 : cs.dropWhile isWS with
  | nil =>
    rw [hr1] at h
    simp [punctDrop] at h
  | cons c rest =>
    rw [hr1] at h
    have hcws : isWS c = false := dropWhile_head_false hr1
    by_cases hc : (c == ':' || c == '-') = true
    · rw [show punctDrop (c :: rest) = rest by simp [punctDrop, hc]] at h
      split at h
      next hlen =>
        injection h with h'
        subst h'
        refine ⟨cs.takeWhile isWS, [c], rest.takeWhile isWS, (rest.dropWhile isWS).dropWhile isDigitC, ?_, hw2, ?_, ?_, ?_, hlen, notDigitHead_dropWhile _⟩
        · conv_lhs => rw [hcs, hr1]
          have e3 : rest = rest.takeWhile isWS ++ rest.dropWhile isWS :=
            (List.takeWhile_append_dropWhile isWS rest).symm
          have e4 : rest.dropWhile isWS =
              (rest.dropWhile isWS).takeWhile isDigitC ++ (rest.dropWhile isWS).dropWhile isDigitC :=
            (List.takeWhile_append_dropWhile isDigitC (rest.dropWhile isWS)).symm
          conv_lhs => rw [e3, e4]
          simp [List.append_assoc]
        · simp only [Bool.or_eq_true, beq_iff_eq] at hc
          rcases hc with rfl | rfl
          · exact Or.inl rfl
          · exact Or.inr (Or.inl rfl)
        · exact fun x hx => List.mem_takeWhile_imp hx
        · exact fun x hx => List.mem_takeWhile_imp hx
      next => exact Option.noConfusion h
    · rw [show punctDrop (c :: rest) = c :: rest by
        simp only [punctDrop]; rw [if_neg hc]] at h
      rw [dropWhile_cons_false _ hcws] at h
      split at h
      next hlen =>
        injection h with h'
        subst h'
        refine ⟨cs.takeWhile isWS, [], [], ((c :: rest).dropWhile isDigitC), ?_, hw2, Or.inr (Or.inr rfl), by intro x hx; simp at hx, ?_, hlen, notDigitHead_dropWhile _⟩
        · conv_lhs => rw [hcs, hr1]
          have e4 : (c :: rest : Chars) = (c :: rest).takeWhile isDigitC ++ (c :: rest).dropWhile isDigitC :=
            (List.takeWhile_append_dropWhile isDigitC (c :: rest)).symm
          conv_lhs => rw [e4]
          simp
        · exact fun x hx => List.mem_takeWhile_imp hx
      next => exact Option.noConfusion h

theorem refCont_complete {w2 p w3 g rest : Chars} (h2 : AllWS w2) (hp : PunctOK p)
    (h3 : AllWS w3) (hg : AllDigits g) (hlen : 8 ≤ g.length) (hrest : NotDigitHead rest) :
    refCont (w2 ++ (p ++ (w3 ++ (g ++ rest)))) = some g := by
  obtain ⟨gc, g', rfl⟩ : ∃ gc g', g = gc :: g' := by
    cases g with
    | nil => simp at hlen
    | cons gc g' => exact ⟨gc, g', rfl⟩
  have hgc : isDigitC gc = true := hg gc (by simp)
  have hgcws : isWS gc = false := not_isWS_of_isDigitC hgc
  have hWSg : ∀ c' cs', ((gc :: g') ++ rest : Chars) = c' :: cs' → isWS c' = false := by
    intro c' cs' he
    rw [List.cons_append] at he
    injection he with h1 _
    rw [← h1]; exact hgcws
  have htake : ((gc :: g') ++ rest).takeWhile isDigitC = gc :: g' :=
    takeWhile_all_of_boundary hg (notDigitHead_elim hrest)
  rcases hp with rfl | rfl | rfl
  · -- p = [':']
    have hdrop : ((w2 ++ ([':'] ++ (w3 ++ ((gc :: g') ++ rest)))).dropWhile isWS)
        = ':' :: (w3 ++ ((gc :: g') ++ rest)) := by
      rw [dropWhile_append_all h2]
      exact dropWhile_cons_false _ (by decide)
    simp only [refCont, hdrop]
    rw [show punctDrop (':' :: (w3 ++ ((gc :: g') ++ rest))) = w3 ++ ((gc :: g') ++ rest) by
      simp [punctDrop]]
    rw [dropWhile_all_of_boundary h3 hWSg, htake]
    rw [if_pos (by simpa using hlen)]
  · -- p = ['-']
    have hdrop : ((w2 ++ (['-'] ++ (w3 ++ ((gc :: g') ++ rest)))).dropWhile isWS)
        = '-' :: (w3 ++ ((gc :: g') ++ rest)) := by
      rw [dropWhile_append_all h2]
      exact dropWhile_cons_false _ (by decide)
    simp only [refCont, hdrop]
    rw [show punctDrop ('-' :: (w3 ++ ((gc :: g') ++ rest))) = w3 ++ ((gc :: g') ++ rest) by
      simp [punctDrop]]
    rw [dropWhile_all_of_boundary h3 hWSg, htake]
    rw [if_pos (by simpa using hlen)]
  · -- p = []
    have hdrop : ((w2 ++ ([] ++ (w3 ++ ((gc :: g') ++ rest)))).dropWhile isWS)
        = (gc :: g') ++ rest := by
      rw [dropWhile_append_all h2, List.nil_append]
      exact dropWhile_all_of_boundary h3 hWSg
    simp only [refCont, hdrop]
    rw [show punctDrop ((gc :: g') ++ rest) = (gc :: g') ++ rest by
      simp [punctDrop, not_colon_dash_of_isDigitC hgc]]
    rw [show ((gc :: g') ++ rest : Chars).dropWhile isWS = (gc :: g') ++ rest from
      dropWhile_cons_false _ hgcws]
    rw [htake]
    rw [if_pos (by simpa using hlen)]

theorem dropWhile_idem (p : Char → Bool) (l : List Char) :
    (l.dropWhile p).dropWhile p = l.dropWhile p := by
  cases hd : l.dropWhile p with
  | nil => rfl
  | cons c cs => exact dropWhile_cons_false _ (dropWhile_head_false hd)

theorem refCont_dropWS (l : Chars) : refCont (l.dropWhile isWS) = refCont l := by
  simp only [refCont]
  rw [dropWhile_idem]

theorem branchRef_sound {pat r1 g : Chars}
    (h : (match stripCI pat r1 with | some r2 => refCont r2 | none => none) = some g) :
    ∃ o r2, r1 = o ++ r2 ∧ eqCIL o pat = true ∧ RefTail r2 g := by
  cases hs : stripCI pat r1 with
  | none => rw [hs] at h; exact Option.noConfusion h
  | some r2 =>
    rw [hs] at h
    obtain ⟨o, ho, he⟩ := stripCI_sound hs
    exact ⟨o, r2, ho, he, refCont_sound h⟩

theorem p1AtPos_sound {cs g : Chars} (h : p1AtPos cs = some g) : P1MatchAt cs g := by
  unfold p1AtPos at h
  split at h
  next => exact Option.noConfusion h
  next r hs =>
    obtain ⟨ref, hcseq, hrefCI⟩ := stripCI_sound hs
    have hw1 : AllWS (r.takeWhile isWS) := fun x hx => List.mem_takeWhile_imp hx
    have hrsplit : r = r.takeWhile isWS ++ r.dropWhile isWS :=
      (List.takeWhile_append_dropWhile isWS r).symm
    have assembleOpt : ∀ {o r2 : Chars}, r.dropWhile isWS = o ++ r2 → P1OptOK o →
        RefTail r2 g → P1MatchAt cs g := by
      intro o r2 hor hoOK htail
      have hr2 : r = r.takeWhile isWS ++ (o ++ r2) := by
        conv_lhs => rw [hrsplit]
        rw [hor]
      exact ⟨ref, r.takeWhile isWS, o, r2,
        hcseq.trans (congrArg (fun z => ref ++ z) hr2), hrefCI, hw1, hoOK, htail⟩
    rw [orElse_eq_some_iff] at h
    rcases h with h | ⟨_, h⟩
    · obtain ⟨o, r2, hor, hoCI, htail⟩ := branchRef_sound h
      exact assembleOpt hor (Or.inl hoCI) htail
    rw [orElse_eq_some_iff] at h
    rcases h with h | ⟨_, h⟩
    · obtain ⟨o, r2, hor, hoCI, htail⟩ := branchRef_sound h
      exact assembleOpt hor (Or.inr (Or.inl hoCI)) htail
    rw [orElse_eq_some_iff] at h
    rcases h with h | ⟨_, h⟩
    · obtain ⟨o, r2, hor, hoCI, htail⟩ := branchRef_sound h
      exact assembleOpt hor (Or.inr (Or.inr (Or.inl hoCI))) htail
    · exact assembleOpt (by simp) (Or.inr (Or.inr (Or.inr rfl))) (refCont_sound h)

theorem p2AtPos_sound {cs g : Chars} (h : p2AtPos cs = some g) : P2MatchAt cs g := by
  unfold p2AtPos at h
  split at h
  next => exact Option.noConfusion h
  next r hs =>
    obtain ⟨lit, hcseq, hlitCI⟩ := stripCI_sound hs
    have hw1 : AllWS (r.takeWhile isWS) := fun x hx => List.mem_takeWhile_imp hx
    have hrsplit : r = r.takeWhile isWS ++ r.dropWhile isWS :=
      (List.takeWhile_append_dropWhile isWS r).symm
    have assembleOpt : ∀ {o r2 : Chars}, r.dropWhile isWS = o ++ r2 → P2OptOK o →
        RefTail r2 g → P2MatchAt cs g := by
      intro o r2 hor hoOK htail
      have hr2 : r = r.takeWhile isWS ++ (o ++ r2) := by
        conv_lhs => rw [hrsplit]
        rw [hor]
      exact ⟨lit, r.takeWhile isWS, o, r2,
        hcseq.trans (congrArg (fun z => lit ++ z) hr2), hlitCI, hw1, hoOK, htail⟩
    rw [orElse_eq_some_iff] at h
    rcases h with h | ⟨_, h⟩
    · obtain ⟨o, r2, hor, hoCI, htail⟩ := branchRef_sound h
      exact assembleOpt hor (Or.inl hoCI) htail
    · exact assembleOpt (by simp) (Or.inr rfl) (refCont_sound h)

theorem p1AtPos_complete {cs g : Chars} (h : P1MatchAt cs g) :
    (p1AtPos cs).isSome = true := by
  obtain ⟨ref, w1, o, tail, heq, href, hw1, ho, htail⟩ := h
  obtain ⟨w2, p, w3, restd, htl, hw2, hp, hw3, hgd, hglen, hnd⟩ := htail
  subst htl
  subst heq
  simp only [p1AtPos, stripCI_complete href]
  rw [orElse_isSome, orElse_isSome, orElse_isSome]
  have hrc : refCont (w2 ++ (p ++ (w3 ++ (g ++ restd)))) = some g :=
    refCont_complete hw2 hp hw3 hgd hglen hnd
  rcases ho with hoCI | hoCI | hoCI | rfl
  · obtain ⟨c', o', rfl⟩ : ∃ c' o', o = c' :: o' := by
      cases o with
      | nil => exact absurd hoCI (by decide)
      | cons c' o' => exact ⟨c', o', rfl⟩
    have hC : eqCI c' 'n' = true := by
      rw [show "no.".data = ['n', 'o', '.'] from rfl] at hoCI
      simp only [eqCIL, Bool.and_eq_true] at hoCI
      exact hoCI.1
    have hdropr1 : (w1 ++ ((c' :: o') ++ (w2 ++ (p ++ (w3 ++ (g ++ restd)))))).dropWhile isWS
        = (c' :: o') ++ (w2 ++ (p ++ (w3 ++ (g ++ restd)))) := by
      rw [dropWhile_append_all hw1]
      exact dropWhile_cons_false _ (not_isWS_of_eqCI hC (by decide) (by decide))
    rw [hdropr1]
    simp only [stripCI_complete hoCI, hrc]
    simp
  · obtain ⟨c', o', rfl⟩ : ∃ c' o', o = c' :: o' := by
      cases o with
      | nil => exact absurd hoCI (by decide)
      | cons c' o' => exact ⟨c', o', rfl⟩
    have hC : eqCI c' 'n' = true := by
      rw [show "no".data = ['n', 'o'] from rfl] at hoCI
      simp only [eqCIL, Bool.and_eq_true] at hoCI
      exact hoCI.1
    have hdropr1 : (w1 ++ ((c' :: o') ++ (w2 ++ (p ++ (w3 ++ (g ++ restd)))))).dropWhile isWS
        = (c' :: o') ++ (w2 ++ (p ++ (w3 ++ (g ++ restd)))) := by
      rw [dropWhile_append_all hw1]
      exact dropWhile_cons_false _ (not_isWS_of_eqCI hC (by decide) (by decide))
    rw [hdropr1]
    simp only [stripCI_complete hoCI, hrc]
    simp
  · obtain ⟨c', o', rfl⟩ : ∃ c' o', o = c' :: o' := by
      cases o with
      | nil => exact absurd hoCI (by decide)
      | cons c' o' => exact ⟨c', o', rfl⟩
    have hC : eqCI c' 'n' = true := by
      rw [show "number".data = ['n', 'u', 'm', 'b', 'e', 'r'] from rfl] at hoCI
      simp only [eqCIL, Bool.and_eq_true] at hoCI
      exact hoCI.1
    have hdropr1 : (w1 ++ ((c' :: o') ++ (w2 ++ (p ++ (w3 ++ (g ++ restd)))))).dropWhile isWS
        = (c' :: o') ++ (w2 ++ (p ++ (w3 ++ (g ++ restd)))) := by
      rw [dropWhile_append_all hw1]
      exact dropWhile_cons_false _ (not_isWS_of_eqCI hC (by decide) (by decide))
    rw [hdropr1]
    simp only [stripCI_complete hoCI, hrc]
    simp
  · simp only [List.nil_append]
    rw [dropWhile_append_all hw1, refCont_dropWS, hrc]
    simp

theorem p2AtPos_complete {cs g : Chars} (h : P2MatchAt cs g) :
    (p2AtPos cs).isSome = true := by
  obtain ⟨lit, w1, o, tail, heq, hlit, hw1, ho, htail⟩ := h
  obtain ⟨w2, p, w3, restd, htl, hw2, hp, hw3, hgd, hglen, hnd⟩ := htail
  subst htl
  subst heq
  simp only [p2AtPos, stripCI_complete hlit]
  rw [orElse_isSome]
  have hrc : refCont (w2 ++ (p ++ (w3 ++ (g ++ restd)))) = some g :=
    refCont_complete hw2 hp hw3 hgd hglen hnd
  rcases ho with hoCI | rfl
  · obtain ⟨c', o', rfl⟩ : ∃ c' o', o = c' :: o' := by
      cases o with
      | nil => exact absurd hoCI (by decide)
      | cons c' o' => exact ⟨c', o', rfl⟩
    have hC : eqCI c' 'i' = true := by
      rw [show "is".data = ['i', 's'] from rfl] at hoCI
      simp only [eqCIL, Bool.and_eq_true] at hoCI
      exact hoCI.1
    have hdropr1 : (w1 ++ ((c' :: o') ++ (w2 ++ (p ++ (w3 ++ (g ++ restd)))))).dropWhile isWS
        = (c' :: o') ++ (w2 ++ (p ++ (w3 ++ (g ++ restd)))) := by
      rw [dropWhile_append_all hw1]
      exact dropWhile_cons_false _ (not_isWS_of_eqCI hC (by decide) (by decide))
    rw [hdropr1]
    simp only [stripCI_complete hoCI, hrc]
    simp
  · simp only [List.nil_append]
    rw [dropWhile_append_all hw1, refCont_dropWS, hrc]
    simp

theorem searchP1_sound : ∀ {cs g : Chars}, searchP1 cs = some g → P1Match cs g := by
  intro cs
  induction cs with
  | nil => intro g h; exact Option.noConfusion h
  | cons c cs' ih =>
    intro g h
    rw [searchP1, orElse_eq_some_iff] at h
    rcases h with h | ⟨_, h⟩
    · exact ⟨[], c :: cs', rfl, p1AtPos_sound h⟩
    · obtain ⟨pre, mid, heq, hm⟩ := ih h
      exact ⟨c :: pre, mid, by simp [heq], hm⟩

theorem searchP2_sound : ∀ {cs g : Chars}, searchP2 cs = some g → P2Match cs g := by
  intro cs
  induction cs with
  | nil => intro g h; exact Option.noConfusion h
  | cons c cs' ih =>
    intro g h
    rw [searchP2, orElse_eq_some_iff] at h
    rcases h with h | ⟨_, h⟩
    · exact ⟨[], c :: cs', rfl, p2AtPos_sound h⟩
    · obtain ⟨pre, mid, heq, hm⟩ := ih h
      exact ⟨c :: pre, mid, by simp [heq], hm⟩

theorem P1MatchAt_ne_nil {mid g : Chars} (h : P1MatchAt mid g) : mid ≠ [] := by
  obtain ⟨ref, w1, o, tail, heq, href, _, _, _⟩ := h
  intro hnil
  rw [hnil] at heq
  have hlen := congrArg List.length heq
  have hrl := eqCIL_length href
  simp [List.length_append] at hlen
  rw [show ("reference".data : Chars).length = 9 from rfl] at hrl
  omega

theorem P2MatchAt_ne_nil {mid g : Chars} (h : P2MatchAt mid g) : mid ≠ [] := by
  obtain ⟨lit, w1, o, tail, heq, hlit, _, _, _⟩ := h
  intro hnil
  rw [hnil] at heq
  have hlen := congrArg List.length heq
  have hrl := eqCIL_length hlit
  simp [List.length_append] at hlen
  rw [show ("transaction reference number".data : Chars).length = 28 from rfl] at hrl
  omega

theorem searchP1_complete : ∀ (pre : Chars) {mid g : Chars}, P1MatchAt mid g →
    (searchP1 (pre ++ mid)).isSome = true := by
  intro pre
  induction pre with
  | nil =>
    intro mid g h
    cases hm : mid with
    | nil => exact absurd hm (P1MatchAt_ne_nil h)
    | cons c cs' =>
      subst hm
      rw [List.nil_append, searchP1, orElse_isSome, p1AtPos_complete h]
      simp
  | cons a pre' ih =>
    intro mid g h
    rw [List.cons_append, searchP1, orElse_isSome, ih h]
    simp

theorem searchP2_complete : ∀ (pre : Chars) {mid g : Chars}, P2MatchAt mid g →
    (searchP2 (pre ++ mid)).isSome = true := by
  intro pre
  induction pre with
  | nil =>
    intro mid g h
    cases hm : mid with
    | nil => exact absurd hm (P2MatchAt_ne_nil h)
    | cons c cs' =>
      subst hm
      rw [List.nil_append, searchP2, orElse_isSome, p2AtPos_complete h]
      simp
  | cons a pre' ih =>
    intro mid g h
    rw [List.cons_append, searchP2, orElse_isSome, ih h]
    simp

/-! ## Claim theorems for the e-mail classification and extraction -/

/-- Claim C1: for every e-mail body string, _is_valid_payment applied to
the lower-cased body returns true if and only if the body contains the
marker credited, does not contain the marker debited, and matches the
target-amount pattern (a currency symbol or code, optional separators,
the exact amount 5, optional decimal suffix); negating any one of these
conditions makes it return false. -/
theorem claim_C1 (bodyLc : Chars) :
    is_valid_payment bodyLc = true ↔
      (HasSub "credited".data bodyLc ∧ ¬ HasSub "debited".data bodyLc ∧
        AmtMatch bodyLc) := by
  unfold is_valid_payment
  simp only [Bool.and_eq_true, Bool.not_eq_true']
  constructor
  · rintro ⟨⟨hc, hd⟩, ha⟩
    refine ⟨containsSub_iff.mp hc, ?_, amtSearch_sound ha⟩
    intro hub
    rw [← containsSub_iff] at hub
    rw [hub] at hd
    exact Bool.noConfusion hd
  · rintro ⟨hc, hd, ha⟩
    refine ⟨⟨containsSub_iff.mpr hc, ?_⟩, ?_⟩
    · cases hcd : containsSub "debited".data bodyLc
      · rfl
      · exact absurd (containsSub_iff.mp hcd) hd
    · obtain ⟨pre, mid, rfl, hm⟩ := ha
      exact amtSearch_complete pre hm

theorem claim_C1_witness :
    HasSub "credited".data "credited ₹5".data ∧
      ¬ HasSub "debited".data "credited ₹5".data ∧ AmtMatch "credited ₹5".data :=
  (claim_C1 "credited ₹5".data).mp (by decide)

/-- Claim C2: for every body string, _extract_txn_id returns the first
capturing group of the first pattern that matches, trying the patterns
in their fixed priority order (the Reference pattern before the
transaction reference number pattern, each capturing eight or more
digits, case-insensitive); for bodies matching no pattern it returns the
synthesized identifier TXN followed by the whole-second timestamp. -/
theorem claim_C2 (body : Chars) (now : Nat) :
    ((∃ g, P1Match body g) → P1Match body (extract_txn_id body now)) ∧
    (¬ (∃ g, P1Match body g) → (∃ g, P2Match body g) →
      P2Match body (extract_txn_id body now)) ∧
    (¬ (∃ g, P1Match body g) → ¬ (∃ g, P2Match body g) →
      extract_txn_id body now = "TXN".data ++ (Nat.repr now).data) := by
  have hs1 : searchP1 body = none ↔ ¬ ∃ g, P1Match body g := by
    constructor
    · rintro hnone ⟨g, pre, mid, heq, hm⟩
      have hc := searchP1_complete pre hm
      rw [← heq, hnone] at hc
      exact Bool.noConfusion hc
    · intro hne
      cases hsv : searchP1 body with
      | none => rfl
      | some g => exact absurd ⟨g, searchP1_sound hsv⟩ hne
  have hs2 : searchP2 body = none ↔ ¬ ∃ g, P2Match body g := by
    constructor
    · rintro hnone ⟨g, pre, mid, heq, hm⟩
      have hc := searchP2_complete pre hm
      rw [← heq, hnone] at hc
      exact Bool.noConfusion hc
    · intro hne
      cases hsv : searchP2 body with
      | none => rfl
      | some g => exact absurd ⟨g, searchP2_sound hsv⟩ hne
  refine ⟨?_, ?_, ?_⟩
  · intro hex
    cases hsv : searchP1 body with
    | none => exact absurd hex (hs1.mp hsv)
    | some g =>
      have he : extract_txn_id body now = g := by
        unfold extract_txn_id
        rw [hsv]
      rw [he]
      exact searchP1_sound hsv
  · intro hne hex
    have h1 : searchP1 body = none := hs1.mpr hne
    cases hsv : searchP2 body with
    | none => exact absurd hex (hs2.mp hsv)
    | some g =>
      have he : extract_txn_id body now = g := by
        unfold extract_txn_id
        rw [h1, hsv]
      rw [he]
      exact searchP2_sound hsv
  · intro hne1 hne2
    unfold extract_txn_id
    rw [hs1.mpr hne1, hs2.mpr hne2]

theorem claim_C2_witness :
    P1Match "Reference No: 123456789.".data
      (extract_txn_id "Reference No: 123456789.".data 0) :=
  (claim_C2 "Reference No: 123456789.".data 0).1
    ⟨"123456789".data,
     ⟨[], "Reference No: 123456789.".data, rfl,
      ⟨"Reference".data, [' '], "No".data, ": 123456789.".data, by decide, by decide,
       by decide, Or.inr (Or.inl (by decide)),
       ⟨[], [':'], [' '], ['.'], by decide, by decide, Or.inl rfl, by decide,
        by decide, by decide, by decide⟩⟩⟩⟩

/-! ## The pipeline invariant -/

theorem inv_init (cooldown : Nat) : Inv cooldown initState := by
  refine ⟨?_, ?_, ?_, ?_, ?_, ?_, ?_⟩
  · intro x hx; simp [initState] at hx
  · simp [initState]
  · intro x hx; simp [initState, ProdHolds] at hx
  · intro x hx; simp [initState] at hx
  · intro x hx; simp [initState] at hx
  · intro hx; simp [initState] at hx
  · exact Nat.le_refl 0

theorem inv_step {cooldown : Nat} {s s' : SysState} (hInv : Inv cooldown s)
    (hS : Step cooldown s s') : Inv cooldown s' := by
  obtain ⟨hQS, hND, hPI, hCP, hCC, hRI, hLL⟩ := hInv
  cases hS with
  | tick =>
    refine ⟨hQS, hND, hPI, hCP, hCC, ?_, ?_⟩
    · intro h
      obtain ⟨h1, h2⟩ := hRI h
      exact ⟨h1, Nat.le_succ_of_le h2⟩
    · exact Nat.le_succ_of_le hLL
  | prodSkip _ => exact ⟨hQS, hND, hPI, hCP, hCC, hRI, hLL⟩
  | consSleep _ _ => exact ⟨hQS, hND, hPI, hCP, hCC, hRI, hLL⟩
  | consWait _ _ => exact ⟨hQS, hND, hPI, hCP, hCC, hRI, hLL⟩
  | prodBegin txn hpidle hne hnone =>
    refine ⟨?_, hND, ?_, ?_, ?_, hRI, hLL⟩
    · intro x hx
      have h1 := hQS x hx
      show (if x = txn then some TxStatus.queued else s.status x) = some .queued
      by_cases hxt : x = txn
      · subst hxt; rw [if_pos rfl]
      · rw [if_neg hxt]; exact h1
    · intro x hold
      rcases hold with he | he
      · injection he with he'
        subst he'
        refine ⟨by simp, ?_, ?_⟩
        · intro hq
          rw [hQS txn hq] at hnone
          exact Option.noConfusion hnone
        · rintro (hc | hc)
          · rw [(hCP txn hc).1] at hnone; exact Option.noConfusion hnone
          · rw [(hCC txn hc).1] at hnone; exact Option.noConfusion hnone
      · exact ProdPhase.noConfusion he
    · intro x hx
      obtain ⟨h1, h2, h3⟩ := hCP x hx
      have hxt : x ≠ txn := by
        intro hx'; subst hx'; rw [h1] at hnone; exact Option.noConfusion hnone
      refine ⟨?_, h2, ?_⟩
      · show (if x = txn then some TxStatus.queued else s.status x) = some .queued
        rw [if_neg hxt]; exact h1
      · rintro (he | he)
        · injection he with he'; exact hxt he'.symm
        · exact ProdPhase.noConfusion he
    · intro x hx
      obtain ⟨h1, h2, h3⟩ := hCC x hx
      have hxt : x ≠ txn := by
        intro hx'; subst hx'; rw [h1] at hnone; exact Option.noConfusion hnone
      refine ⟨?_, h2, ?_⟩
      · show (if x = txn then some TxStatus.queued else s.status x) = some .processing
        rw [if_neg hxt]; exact h1
      · rintro (he | he)
        · injection he with he'; exact hxt he'.symm
        · exact ProdPhase.noConfusion he
  | prodLog txn appendOk hplog =>
    refine ⟨hQS, hND, ?_, ?_, ?_, hRI, hLL⟩
    · intro x hold
      rcases hold with he | he
      · exact ProdPhase.noConfusion he
      · injection he with he'
        subst he'
        exact hPI txn (Or.inl hplog)
    · intro x hx
      obtain ⟨h1, h2, h3⟩ := hCP x hx
      refine ⟨h1, h2, ?_⟩
      rintro (he | he)
      · exact ProdPhase.noConfusion he
      · injection he with he'
        subst he'
        exact h3 (Or.inl hplog)
    · intro x hx
      obtain ⟨h1, h2, h3⟩ := hCC x hx
      refine ⟨h1, h2, ?_⟩
      rintro (he | he)
      · exact ProdPhase.noConfusion he
      · injection he with he'
        subst he'
        exact h3 (Or.inl hplog)
  | prodAppend txn hpapp =>
    obtain ⟨hst, hnq, hnc⟩ := hPI txn (Or.inr hpapp)
    refine ⟨?_, ?_, ?_, ?_, ?_, ?_, hLL⟩
    · intro x hx
      rcases List.mem_append.mp hx with hx | hx
      · exact hQS x hx
      · rw [List.mem_singleton.mp hx]; exact hst
    · rw [List.nodup_append]
      refine ⟨hND, List.nodup_singleton txn, ?_⟩
      intro a ha hb
      rw [List.mem_singleton.mp hb] at ha
      exact hnq ha
    · intro x hold
      rcases hold with he | he
      · exact ProdPhase.noConfusion he
      · exact ProdPhase.noConfusion he
    · intro x hx
      obtain ⟨h1, h2, h3⟩ := hCP x hx
      have hxt : x ≠ txn := by
        intro hx'; subst hx'
        exact hnc (Or.inl hx)
      refine ⟨h1, ?_, ?_⟩
      · intro hmem
        rcases List.mem_append.mp hmem with hm | hm
        · exact h2 hm
        · exact hxt (List.mem_singleton.mp hm)
      · rintro (he | he)
        · exact ProdPhase.noConfusion he
        · exact ProdPhase.noConfusion he
    · intro x hx
      obtain ⟨h1, h2, h3⟩ := hCC x hx
      have hxt : x ≠ txn := by
        intro hx'; subst hx'
        exact hnc (Or.inr hx)
      refine ⟨h1, ?_, ?_⟩
      · intro hmem
        rcases List.mem_append.mp hmem with hm | hm
        · exact h2 hm
        · exact hxt (List.mem_singleton.mp hm)
      · rintro (he | he)
        · exact ProdPhase.noConfusion he
        · exact ProdPhase.noConfusion he
    · intro h
      obtain ⟨h1, h2⟩ := hRI h
      exact ⟨by simp, h2⟩
  | consCheck hcidle hdec =>
    unfold consumerDecision at hdec
    by_cases hq : s.queue = []
    · rw [if_pos hq] at hdec; exact CDecision.noConfusion hdec
    rw [if_neg hq] at hdec
    by_cases hcool : s.clock - s.lastProcessed < cooldown
    · rw [if_pos hcool] at hdec; exact CDecision.noConfusion hdec
    rw [if_neg hcool] at hdec
    have hcool' : s.lastProcessed + cooldown ≤ s.clock := by omega
    refine ⟨hQS, hND, ?_, ?_, ?_, ?_, hLL⟩
    · intro x hold
      obtain ⟨h1, h2, h3⟩ := hPI x hold
      refine ⟨h1, h2, ?_⟩
      rintro (he | he)
      · exact ConsPhase.noConfusion he
      · exact ConsPhase.noConfusion he
    · intro x hx; exact absurd hx (by simp)
    · intro x hx; exact absurd hx (by simp)
    · intro _; exact ⟨hq, hcool'⟩
  | consPop txn rest hready hqeq =>
    have hmem : txn ∈ s.queue := by rw [hqeq]; exact List.mem_cons_self txn rest
    have hnd' : txn ∉ rest ∧ rest.Nodup := by
      have h0 := hND
      rw [hqeq] at h0
      exact List.nodup_cons.mp h0
    refine ⟨?_, hnd'.2, ?_, ?_, ?_, ?_, hLL⟩
    · intro x hx
      refine hQS x ?_
      rw [hqeq]
      exact List.mem_cons_of_mem txn hx
    · intro x hold
      obtain ⟨h1, h2, h3⟩ := hPI x hold
      have hxq : x ∉ rest := by
        intro hx'
        exact h2 (by rw [hqeq]; exact List.mem_cons_of_mem txn hx')
      have hxt : x ≠ txn := by
        intro hx'; subst hx'
        exact h2 hmem
      refine ⟨h1, hxq, ?_⟩
      rintro (he | he)
      · injection he with he'; exact hxt he'.symm
      · exact ConsPhase.noConfusion he
    · intro x hx
      injection hx with he'
      subst he'
      refine ⟨hQS txn hmem, hnd'.1, ?_⟩
      intro hold
      exact (hPI txn hold).2.1 hmem
    · intro x hx; exact absurd hx (by simp)
    · intro hx; exact absurd hx (by simp)
  | consMark txn hpop =>
    obtain ⟨h1, h2, h3⟩ := hCP txn hpop
    refine ⟨?_, hND, ?_, ?_, ?_, ?_, hLL⟩
    · intro x hx
      have hxt : x ≠ txn := by
        intro hx'; subst hx'; exact h2 hx
      show (if x = txn then some TxStatus.processing else s.status x) = some .queued
      rw [if_neg hxt]
      exact hQS x hx
    · intro x hold
      obtain ⟨p1, p2, p3⟩ := hPI x hold
      have hxt : x ≠ txn := by
        intro hx'; subst hx'; exact h3 hold
      refine ⟨?_, p2, ?_⟩
      · show (if x = txn then some TxStatus.processing else s.status x) = some .queued
        rw [if_neg hxt]; exact p1
      · rintro (he | he)
        · exact ConsPhase.noConfusion he
        · injection he with he'; exact hxt he'.symm
    · intro x hx; exact absurd hx (by simp)
    · intro x hx
      injection hx with he'
      subst he'
      exact ⟨by simp, h2, h3⟩
    · intro hx; exact absurd hx (by simp)
  | consFinish txn ok hproc =>
    obtain ⟨h1, h2, h3⟩ := hCC txn hproc
    refine ⟨?_, hND, ?_, ?_, ?_, ?_, ?_⟩
    · intro x hx
      have hxt : x ≠ txn := by
        intro hx'; subst hx'; exact h2 hx
      show (if x = txn then some (if ok then TxStatus.completed else .failed)
        else s.status x) = some .queued
      rw [if_neg hxt]
      exact hQS x hx
    · intro x hold
      obtain ⟨p1, p2, p3⟩ := hPI x hold
      have hxt : x ≠ txn := by
        intro hx'; subst hx'; exact h3 hold
      refine ⟨?_, p2, ?_⟩
      · show (if x = txn then some (if ok then TxStatus.completed else .failed)
          else s.status x) = some .queued
        rw [if_neg hxt]; exact p1
      · rintro (he | he)
        · exact ConsPhase.noConfusion he
        · exact ConsPhase.noConfusion he
    · intro x hx; exact absurd hx (by simp)
    · intro x hx; exact absurd hx (by simp)
    · intro hx; exact absurd hx (by simp)
    · exact Nat.le_refl _

theorem reachable_inv {cooldown : Nat} {s : SysState} (h : Reachable cooldown s) :
    Inv cooldown s := by
  induction h with
  | init => exact inv_init cooldown
  | step _ hS ih => exact inv_step ih hS

/-! ## Claim theorems for the pipeline -/

/-- Claim C3: across every interleaving of producer and consumer steps,
each txn_id enters the status mapping at most once and it enters as
Queued (the first conjunct: a status created by a step is Queued; the
second conjunct shows a present status never disappears, so the entry
happens at most once along any run); the status of a txn_id only ever
advances along Queued to Processing to Completed or Failed, never moving
backward and never leaving a terminal state (the second conjunct: every
step leaves a status unchanged or moves it one hop forward). -/
theorem claim_C3 (cooldown : Nat) (s s' : SysState) (x : String)
    (hR : Reachable cooldown s) (hS : Step cooldown s s') :
    (s.status x = none → ∀ v, s'.status x = some v → v = .queued) ∧
    (∀ v, s.status x = some v → ∃ v', s'.status x = some v' ∧ StatusHop v v') := by
  obtain ⟨hQS, hND, hPI, hCP, hCC, hRI, hLL⟩ := reachable_inv hR
  cases hS with
  | tick =>
    refine ⟨?_, ?_⟩
    · intro hn v hv
      have hv' : s.status x = some v := hv
      rw [hn] at hv'
      exact Option.noConfusion hv'
    · intro v hv
      exact ⟨v, hv, Or.inl rfl⟩
  | prodSkip _ =>
    refine ⟨?_, ?_⟩
    · intro hn v hv
      have hv' : s.status x = some v := hv
      rw [hn] at hv'
      exact Option.noConfusion hv'
    · intro v hv
      exact ⟨v, hv, Or.inl rfl⟩
  | consSleep _ _ =>
    refine ⟨?_, ?_⟩
    · intro hn v hv
      have hv' : s.status x = some v := hv
      rw [hn] at hv'
      exact Option.noConfusion hv'
    · intro v hv
      exact ⟨v, hv, Or.inl rfl⟩
  | consWait _ _ =>
    refine ⟨?_, ?_⟩
    · intro hn v hv
      have hv' : s.status x = some v := hv
      rw [hn] at hv'
      exact Option.noConfusion hv'
    · intro v hv
      exact ⟨v, hv, Or.inl rfl⟩
  | consCheck _ _ =>
    refine ⟨?_, ?_⟩
    · intro hn v hv
      have hv' : s.status x = some v := hv
      rw [hn] at hv'
      exact Option.noConfusion hv'
    · intro v hv
      exact ⟨v, hv, Or.inl rfl⟩
  | consPop txn rest _ _ =>
    refine ⟨?_, ?_⟩
    · intro hn v hv
      have hv' : s.status x = some v := hv
      rw [hn] at hv'
      exact Option.noConfusion hv'
    · intro v hv
      exact ⟨v, hv, Or.inl rfl⟩
  | prodLog txn appendOk _ =>
    refine ⟨?_, ?_⟩
    · intro hn v hv
      have hv' : s.status x = some v := hv
      rw [hn] at hv'
      exact Option.noConfusion hv'
    · intro v hv
      exact ⟨v, hv, Or.inl rfl⟩
  | prodAppend txn _ =>
    refine ⟨?_, ?_⟩
    · intro hn v hv
      have hv' : s.status x = some v := hv
      rw [hn] at hv'
      exact Option.noConfusion hv'
    · intro v hv
      exact ⟨v, hv, Or.inl rfl⟩
  | prodBegin txn hpidle hne hnone =>
    refine ⟨?_, ?_⟩
    · intro hn v hv
      have hv' : (if x = txn then some TxStatus.queued else s.status x) = some v := hv
      by_cases hxt : x = txn
      · rw [if_pos hxt] at hv'
        injection hv' with h'
        exact h'.symm
      · rw [if_neg hxt] at hv'
        rw [hn] at hv'
        exact Option.noConfusion hv'
    · intro v hv
      by_cases hxt : x = txn
      · subst hxt
        rw [hv] at hnone
        exact Option.noConfusion hnone
      · refine ⟨v, ?_, Or.inl rfl⟩
        show (if x = txn then some TxStatus.queued else s.status x) = some v
        rw [if_neg hxt]
        exact hv
  | consMark txn hpop =>
    obtain ⟨h1, h2, h3⟩ := hCP txn hpop
    refine ⟨?_, ?_⟩
    · intro hn v hv
      have hv' : (if x = txn then some TxStatus.processing else s.status x) = some v := hv
      by_cases hxt : x = txn
      · subst hxt
        rw [h1] at hn
        exact Option.noConfusion hn
      · rw [if_neg hxt] at hv'
        rw [hn] at hv'
        exact Option.noConfusion hv'
    · intro v hv
      by_cases hxt : x = txn
      · subst hxt
        have hvq : v = .queued := by
          rw [h1] at hv
          injection hv with h'
          exact h'.symm
        refine ⟨.processing, ?_, Or.inr (Or.inl ⟨hvq, rfl⟩)⟩
        show (if x = x then some TxStatus.processing else s.status x) = some .processing
        rw [if_pos rfl]
      · refine ⟨v, ?_, Or.inl rfl⟩
        show (if x = txn then some TxStatus.processing else s.status x) = some v
        rw [if_neg hxt]
        exact hv
  | consFinish txn ok hproc =>
    obtain ⟨h1, h2, h3⟩ := hCC txn hproc
    refine ⟨?_, ?_⟩
    · intro hn v hv
      have hv' : (if x = txn then some (if ok then TxStatus.completed else .failed)
          else s.status x) = some v := hv
      by_cases hxt : x = txn
      · subst hxt
        rw [h1] at hn
        exact Option.noConfusion hn
      · rw [if_neg hxt] at hv'
        rw [hn] at hv'
        exact Option.noConfusion hv'
    · intro v hv
      by_cases hxt : x = txn
      · subst hxt
        have hvp : v = .processing := by
          rw [h1] at hv
          injection hv with h'
          exact h'.symm
        refine ⟨if ok then .completed else .failed, ?_, ?_⟩
        · show (if x = x then some (if ok then TxStatus.completed else .failed)
            else s.status x) = some (if ok then .completed else .failed)
          rw [if_pos rfl]
        · refine Or.inr (Or.inr ⟨hvp, ?_⟩)
          cases ok
          · exact Or.inr rfl
          · exact Or.inl rfl
      · refine ⟨v, ?_, Or.inl rfl⟩
        show (if x = txn then some (if ok then TxStatus.completed else .failed)
          else s.status x) = some v
        rw [if_neg hxt]
        exact hv

theorem claim_C3_witness :
    (initState.status "t" = none →
      ∀ v, ({ initState with
          status := fun y => if y = "t" then some TxStatus.queued else initState.status y,
          prod := ProdPhase.toLog "t" } : SysState).status "t" = some v →
        v = .queued) ∧
    (∀ v, initState.status "t" = some v →
      ∃ v', ({ initState with
          status := fun y => if y = "t" then some TxStatus.queued else initState.status y,
          prod := ProdPhase.toLog "t" } : SysState).status "t" = some v' ∧
        StatusHop v v') :=
  claim_C3 40 _ _ "t" Reachable.init (Step.prodBegin initState "t" rfl (by decide) rfl)

/-- Claim C4: the consumer loop never dequeues a next transaction for
publishing less than the configured cooldown after the end of the
previous publish attempt: whenever processor pops a txn_id from the
queue, at least cooldown seconds have elapsed since last_processed was
last written (last_processed stores the clock value of that write); if
the cooldown has not elapsed the loop takes the wait branch and
re-checks instead of dequeuing early. -/
theorem claim_C4 (cooldown : Nat) (s s' : SysState)
    (hR : Reachable cooldown s) (_hS : Step cooldown s s') :
    (IsPopStep s s' → s.queue ≠ [] ∧ s.lastProcessed + cooldown ≤ s.clock) ∧
    (s.queue ≠ [] → s.clock - s.lastProcessed < cooldown →
      consumerDecision cooldown s = .waitCooldown ∧ ¬ IsPopStep s s') := by
  have hInv := reachable_inv hR
  refine ⟨?_, ?_⟩
  · rintro ⟨hready, _⟩
    exact hInv.readyInv hready
  · intro hq hcool
    have hdec : consumerDecision cooldown s = .waitCooldown := by
      unfold consumerDecision
      rw [if_neg hq, if_pos hcool]
    refine ⟨hdec, ?_⟩
    rintro ⟨hready, _⟩
    obtain ⟨_, h2⟩ := hInv.readyInv hready
    have hll := hInv.lastLe
    omega

theorem claim_C4_witness :
    (IsPopStep initState { initState with clock := initState.clock + 1 } →
      initState.queue ≠ [] ∧ initState.lastProcessed + 40 ≤ initState.clock) ∧
    (initState.queue ≠ [] → initState.clock - initState.lastProcessed < 40 →
      consumerDecision 40 initState = .waitCooldown ∧
      ¬ IsPopStep initState { initState with clock := initState.clock + 1 }) :=
  claim_C4 40 _ _ Reachable.init (Step.tick initState)

/-! ## Claim theorems for the publisher, the recorder and the timezone -/

theorem sendMqttFrom_trace : ∀ (behaviour : Nat → AttemptOutcome) (a n : Nat)
    (t : AttemptTrace), t ∈ (sendMqttFrom behaviour a n).2 → ∃ o, t = runAttempt o := by
  intro behaviour a n
  induction n generalizing a with
  | zero => intro t ht; simp [sendMqttFrom] at ht
  | succ n ih =>
    intro t ht
    rw [sendMqttFrom] at ht
    by_cases hs : (runAttempt (behaviour a)).succeeded = true
    · rw [if_pos hs] at ht
      rw [List.mem_singleton.mp ht]
      exact ⟨behaviour a, rfl⟩
    · rw [if_neg hs] at ht
      rcases List.mem_cons.mp ht with h | h
      · exact ⟨behaviour a, h⟩
      · exact ih (a + 1) t h

/-- Claim C5, amended: on every attempt made by send_mqtt, the finally
block stops the network loop and disconnects exactly when the client
reached the connected state at the attempt's exit (the publish-failure
and success outcomes); attempts that fail at connect never start the
loop, and attempts that time out waiting for the acknowledgment leave
the started loop running, with no teardown.  In the scenario where the
first two connection attempts fail and the third succeeds within the
attempt budget, the function returns success and teardown runs after the
third attempt only. -/
theorem claim_C5_amended :
    (∀ (behaviour : Nat → AttemptOutcome) (n : Nat) (t : AttemptTrace),
      t ∈ (send_mqtt behaviour n).2 →
      ∃ o, t = runAttempt o ∧ t.tornDown = t.connected ∧
        (t.connected = true ↔ (o = .publishError ∨ o = .publishOk)) ∧
        (t.loopStarted = true ↔ o ≠ .connectError)) ∧
    ((send_mqtt mqttScenario 3).1 = true ∧
      (send_mqtt mqttScenario 3).2.map AttemptTrace.tornDown = [false, false, true]) := by
  constructor
  · intro behaviour n t ht
    obtain ⟨o, rfl⟩ := sendMqttFrom_trace behaviour 1 n t ht
    refine ⟨o, rfl, ?_⟩
    cases o <;> exact (by decide)
  · exact (by decide)

theorem claim_C5_amended_witness :
    ∃ o, runAttempt .connectError = runAttempt o ∧
      (runAttempt AttemptOutcome.connectError).tornDown
        = (runAttempt AttemptOutcome.connectError).connected ∧
      ((runAttempt AttemptOutcome.connectError).connected = true ↔
        (o = .publishError ∨ o = .publishOk)) ∧
      ((runAttempt AttemptOutcome.connectError).loopStarted = true ↔
        o ≠ .connectError) :=
  claim_C5_amended.1 mqttScenario 3 _ (by decide)

/-- Counterexample to claim C5 as stated: with the first two connection
attempts failing and the third succeeding, send_mqtt returns success,
but the teardown (loop_stop and disconnect) did not run after the first
two attempts, because the finally block guards it behind
client.is_connected(); so the connection handling is not torn down on
every attempt's exit path. -/
theorem claim_C5_counterexample :
    (send_mqtt mqttScenario 3).1 = true ∧
    (send_mqtt mqttScenario 3).2.length = 3 ∧
    (send_mqtt mqttScenario 3).2.map AttemptTrace.tornDown = [false, false, true] := by
  decide

/-- Claim C6: when the ledger append inside log_payment raises, the
identifier is not added to the in-memory recorded set seen_txn_ids, and
the calling producer loop still appends the identifier to the dispatch
queue (after having set its status to Queued), so a recording failure
never blocks payment signaling. -/
theorem claim_C6 (s : SysState) (txn : String) (h1 : txn ≠ "") (h2 : s.status txn = none) :
    (main_loop_iter (some txn) false s).seenTxnIds = s.seenTxnIds ∧
    (main_loop_iter (some txn) false s).queue = s.queue ++ [txn] ∧
    (main_loop_iter (some txn) false s).status txn = some .queued := by
  simp only [main_loop_iter]
  rw [if_pos ⟨h1, h2⟩]
  refine ⟨rfl, rfl, ?_⟩
  show (fun y => if y = txn then some TxStatus.queued else s.status y) txn = some .queued
  simp

theorem claim_C6_witness :
    (main_loop_iter (some "t") false initState).seenTxnIds = initState.seenTxnIds ∧
    (main_loop_iter (some "t") false initState).queue = initState.queue ++ ["t"] ∧
    (main_loop_iter (some "t") false initState).status "t" = some .queued :=
  claim_C6 initState "t" (by decide) rfl

/-- Claim C7 concerns a bug in the code: tz_mumbai returns the regional
zone when it is available, but when the lookup fails the except clause
names ZoneInfoNotFoundError, which is not bound in the module (only
ZoneInfo is imported from zoneinfo), so evaluating the handler raises
NameError instead of returning the UTC fallback promised by the
docstring; the function does raise when the regional zone is
unavailable. -/
theorem claim_C7 :
    tz_mumbai true = .zone "Asia/Mumbai" ∧
    tz_mumbai false = .nameErrorRaised ∧
    zenorcModuleNames.contains "ZoneInfoNotFoundError" = false := by
  decide

end Zenorc

namespace RepoRanger

/-! ## Claim theorems for the web backend -/

theorem mem_basename_not_slash {filename : List Char} {c : Char}
    (h : c ∈ basename filename) : c ≠ '/' := by
  unfold basename at h
  rw [List.mem_reverse] at h
  have hp := List.mem_takeWhile_imp h
  intro he
  subst he
  simp at hp

theorem segsOf_no_slash : ∀ {b : List Char}, '/' ∉ b → segsOf b = [b] := by
  intro b
  induction b with
  | nil => intro _; rfl
  | cons c b' ih =>
    intro h
    have hc : ¬ c = '/' := fun he => h (by rw [he]; exact List.mem_cons_self _ _)
    have hb' : '/' ∉ b' := fun hm => h (List.mem_cons_of_mem c hm)
    simp only [segsOf]
    rw [if_neg hc, ih hb']

theorem segsOf_append_slash : ∀ {a : List Char} (b : List Char), '/' ∉ a →
    segsOf (a ++ '/' :: b) = a :: segsOf b := by
  intro a
  induction a with
  | nil =>
    intro b _
    show segsOf ('/' :: b) = [] :: segsOf b
    simp [segsOf]
  | cons c a' ih =>
    intro b h
    have hc : ¬ c = '/' := fun he => h (by rw [he]; exact List.mem_cons_self _ _)
    have ha' : '/' ∉ a' := fun hm => h (List.mem_cons_of_mem c hm)
    show segsOf (c :: (a' ++ '/' :: b)) = (c :: a') :: segsOf b
    simp only [segsOf]
    rw [if_neg hc, ih b ha']

/-- Counterexample to claim C8 as stated: for the filename consisting of
two dots, the accessed path is the join of the output directory with
that basename, and it resolves to the parent of the output directory
(the process working directory), which is outside the output
directory. -/
theorem claim_C8_counterexample :
    targetPath "..".data = "ai_agents/..".data ∧
    resolveSegs (segsOf (targetPath "..".data)) = [] ∧
    strictlyInside OUTPUT_DIR (targetPath "..".data) = false := by
  decide

/-- Claim C8, amended: save_code_tool writes only to, and download_file
serves only, the join of the output directory with the basename of the
requested name; the basename never contains a path separator, so no
traversal deeper than one level is possible, and for every name whose
basename is not empty, a dot, or two dots the accessed path lies
strictly inside the output directory.  The degenerate basenames (empty,
dot, two dots) make the path resolve to the output directory itself or
to its parent. -/
theorem claim_C8_amended (filename : List Char) :
    ('/' ∉ basename filename) ∧
    targetPath filename = joinPath OUTPUT_DIR (basename filename) ∧
    (basename filename ≠ [] → basename filename ≠ ['.'] →
      basename filename ≠ ['.', '.'] →
      strictlyInside OUTPUT_DIR (targetPath filename) = true) := by
  refine ⟨fun hm => mem_basename_not_slash hm rfl, rfl, ?_⟩
  intro hne hdot hdd
  obtain ⟨c, bn', hbn⟩ : ∃ c bn', basename filename = c :: bn' := by
    cases hb : basename filename with
    | nil => exact absurd hb hne
    | cons c bn' => exact ⟨c, bn', rfl⟩
  have hnoslash : '/' ∉ basename filename := fun hm => mem_basename_not_slash hm rfl
  have hchead : c ≠ '/' := by
    intro he
    exact hnoslash (by rw [hbn, he]; exact List.mem_cons_self _ _)
  have hjoin : targetPath filename = OUTPUT_DIR ++ '/' :: basename filename := by
    unfold targetPath joinPath
    rw [if_neg, if_neg]
    · exact (by decide : ¬ (OUTPUT_DIR = [] ∨ OUTPUT_DIR.getLast? = some '/'))
    · rw [hbn]
      intro hh
      simp only [List.head?] at hh
      injection hh with hh'
      exact hchead hh'
  have hsegs : segsOf (targetPath filename) = OUTPUT_DIR :: segsOf (basename filename) := by
    rw [hjoin]
    exact segsOf_append_slash (basename filename) (by decide)
  have hsegs2 : segsOf (basename filename) = [basename filename] :=
    segsOf_no_slash hnoslash
  have hres : resolveSegs (segsOf (targetPath filename)) = [OUTPUT_DIR, basename filename] := by
    rw [hsegs, hsegs2]
    unfold resolveSegs
    simp only [List.foldl]
    rw [if_neg (by decide : ¬ (OUTPUT_DIR = [] ∨ OUTPUT_DIR = ['.'])),
      if_neg (by decide : ¬ OUTPUT_DIR = ['.', '.'])]
    rw [if_neg (fun h => h.elim hne hdot), if_neg hdd]
    rfl
  unfold strictlyInside
  rw [hres]
  rw [show resolveSegs (segsOf OUTPUT_DIR) = [OUTPUT_DIR] from by decide]
  simp [List.isPrefixOf]

theorem claim_C8_amended_witness :
    strictlyInside OUTPUT_DIR (targetPath "notes.py".data) = true :=
  (claim_C8_amended "notes.py".data).2.2 (by decide) (by decide) (by decide)

theorem processDir_bound : ∀ (fs : List WalkFile) (size : Nat) (content : List Char),
    size = content.length → size ≤ MAX_SIZE →
    (processDir fs size content).1 = (processDir fs size content).2.length ∧
    (processDir fs size content).1 ≤ MAX_SIZE := by
  intro fs
  induction fs with
  | nil => intro size content hs hb; exact ⟨hs, hb⟩
  | cons f fs' ih =>
    intro size content hs hb
    unfold processDir
    by_cases hext : splitextExt f.name ∈ ALLOWED_EXTENSIONS
    · rw [if_pos hext]
      by_cases hro : f.readOk = true
      · rw [if_pos hro]
        by_cases hbig : MAX_SIZE < size + (mkChunk f.name f.content).length
        · rw [if_pos hbig]
          exact ⟨hs, hb⟩
        · rw [if_neg hbig]
          refine ih _ _ ?_ ?_
          · rw [hs, List.length_append]
          · omega
      · rw [if_neg hro]
        exact ih _ _ hs hb
    · rw [if_neg hext]
      exact ih _ _ hs hb

theorem create_context_aux : ∀ (dirs : List (List WalkFile)) (acc : Nat × List Char),
    acc.1 = acc.2.length → acc.1 ≤ MAX_SIZE →
    (dirs.foldl (fun a d => processDir d a.1 a.2) acc).1
      = (dirs.foldl (fun a d => processDir d a.1 a.2) acc).2.length ∧
    (dirs.foldl (fun a d => processDir d a.1 a.2) acc).1 ≤ MAX_SIZE := by
  intro dirs
  induction dirs with
  | nil => intro acc h1 h2; exact ⟨h1, h2⟩
  | cons d dirs' ih =>
    intro acc h1 h2
    rw [List.foldl_cons]
    have hd := processDir_bound d acc.1 acc.2 h1 h2
    exact ih _ hd.1 hd.2

/-- Claim C9: for every repository tree it walks, create_context writes
a context blob whose total length never exceeds the fixed limit of
2*1024*1024 characters: a file's chunk is appended only when the running
size plus that chunk stays within the limit, so the final written
content is always at most MAX_SIZE. -/
theorem claim_C9 (dirs : List (List WalkFile)) :
    (create_context dirs).2.length ≤ MAX_SIZE ∧ MAX_SIZE = 2 * 1024 * 1024 := by
  have h := create_context_aux dirs (0, []) rfl (Nat.zero_le _)
  refine ⟨?_, rfl⟩
  unfold create_context
  rw [← h.1]
  exact h.2

/-- Claim C10 concerns a bug in the code: clone_github_repo does raise
ValueError before invoking the git subprocess for every URL failing the
prefix check (here evaluated at the failing input), but the ingest
endpoint does not surface it as HTTP 400: the inner handler raises
HTTPException(400), which the outer except Exception clause of the same
endpoint catches and re-raises as HTTPException(500), so the client
receives 500. -/
theorem claim_C10 :
    Zenorc.startsWithL "http".data "http://example.com/repo".data = true ∧
    Zenorc.startsWithL "https://github.com/".data "http://example.com/repo".data = false ∧
    (clone_github_repo "http://example.com/repo".data true).2 = false ∧
    (clone_github_repo "http://example.com/repo".data true).1
      = Except.error (PyExc.valueError
          "Security Error: Only https github.com URLs are allowed.") ∧
    responseStatus (ingest_endpoint "http://example.com/repo".data true true) = 500 := by
  refine ⟨by decide, by decide, by decide, rfl, by decide⟩

end RepoRanger

/-! ## Concrete evaluations

The executable matchers and models are exercised on concrete inputs;
the regex evaluations were cross-checked against the behaviour of the
Python re engine on the same inputs. -/

section Evaluation
open Zenorc

example : amtSearch "you have credited rs 5.00 today".data = true := by decide
example : amtSearch "rs 50".data = false := by decide
example : amtSearch "paid ₹5 now".data = true := by decide
example : amtSearch "INR , 5,00!".data = true := by decide
example : amtSearch "rs. 5x".data = false := by decide
example : amtSearch "rs 5.000 received".data = true := by decide
example : is_valid_payment "credited ₹5".data = true := by decide
example : is_valid_payment "credited and debited rs 5".data = false := by decide
example : is_valid_payment "debit of rs 5".data = false := by decide
example : extract_txn_id "Reference No: 123456789.".data 0 = "123456789".data := by decide
example : extract_txn_id "your transaction reference number is 87654321 x".data 5
    = "87654321".data := by decide
example : extract_txn_id "Reference no.1234567".data 99 = "TXN99".data := by decide
example : extract_txn_id "nothing here".data 99 = "TXN99".data := by decide
example : extract_txn_id "ReferenceNo-11112222x".data 0 = "11112222".data := by decide
example : amtSearch "rs 5.5".data = true := by decide
example : amtSearch "rs,\t,5".data = false := by decide
example : amtSearch "rs \t, \t 5".data = true := by decide
example : amtSearch "inr5.00".data = true := by decide
example : amtSearch "₹ ,, 5,00x".data = true := by decide
example : amtSearch "rs._5".data = false := by decide
example : extract_txn_id "Reference Number 00001111222".data 0 = "00001111222".data := by decide
example : extract_txn_id "reference  :  12345678".data 0 = "12345678".data := by decide
example : extract_txn_id "Reference No5 12345678".data 3 = "TXN3".data := by decide
example : extract_txn_id "REFERENCE NUMBER IS 12345678".data 4 = "TXN4".data := by decide
example : extract_txn_id "Reference no.:12345678".data 0 = "12345678".data := by decide
example : extract_txn_id "Reference - 12345678".data 0 = "12345678".data := by decide
example : RepoRanger.basename "..".data = "..".data := by decide
example : RepoRanger.basename "a/".data = [] := by decide
example : RepoRanger.basename "/etc/passwd".data = "passwd".data := by decide
example : RepoRanger.basename "a/../b".data = "b".data := by decide
example : RepoRanger.targetPath "..".data = "ai_agents/..".data := by decide
example : RepoRanger.targetPath "".data = "ai_agents/".data := by decide
example : RepoRanger.strictlyInside RepoRanger.OUTPUT_DIR (RepoRanger.targetPath "..".data) = false := by decide
example : RepoRanger.strictlyInside RepoRanger.OUTPUT_DIR (RepoRanger.targetPath "x/../y.py".data) = true := by decide
example : RepoRanger.splitextExt "a.tar.gz".data = ".gz".data := by decide
example : RepoRanger.splitextExt ".bashrc".data = [] := by decide
example : RepoRanger.splitextExt "..py".data = [] := by decide
example : RepoRanger.splitextExt "m.py".data = ".py".data := by decide
example : RepoRanger.responseStatus
    (RepoRanger.ingest_endpoint "http://example.com/r".data true true) = 500 := by decide
example : RepoRanger.responseStatus
    (RepoRanger.ingest_endpoint "https://github.com/u/r".data true true) = 200 := by decide
example : (RepoRanger.clone_github_repo "http://example.com/r".data true).2 = false := by decide
example : Zenorc.tz_mumbai false = .nameErrorRaised := by decide
example : (Zenorc.send_mqtt
    (fun i => if i ≤ 2 then .connectError else .publishOk) 3).1 = true := by decide
example : ((Zenorc.send_mqtt
    (fun i => if i ≤ 2 then .connectError else .publishOk) 3).2.map
      Zenorc.AttemptTrace.tornDown) = [false, false, true] := by decide

end Evaluation
